import Mathlib

/-!
Shallow embedding of the gcache page-based arena allocator
(`gcache::Page`, `gcache::PageStore` from `gcache_page.cpp` /
`gcache_page_store.cpp`) and proofs about it.

Machine pointers are modelled as byte offsets from the start of a page's
mapped region; a cross-page pointer is the pair `(page name, offset)`.
Byte memory written by this core is a `List Nat` per page.  Buffer headers
(whose binary layout is an external contract per the design document) are
kept in a per-page association list from offset to a structured header
value.  The repository headers (`gcache_page.hpp`, `gcache_bh.hpp`,
`gcache_limits.hpp`) are not part of the sources; the constants and small
helpers they define are modelled from the design document and marked so.
-/

namespace GCache

/-- Modelled from the spec: alignment granularity of the arena
(`aligned_size` rounds sizes up to an alignment boundary; the repository
defines the constant in the missing `gcache_memops.hpp`). -/
def alignment : Nat := 8

/-- Modelled from the spec: the opaque fixed-size buffer header
(`sizeof(BufferHeader)`, defined in the missing `gcache_bh.hpp`). -/
def bhSize : Nat := 32

/-- Modelled from the spec: nonce width; the reference implementation uses
128 bits (16 bytes). -/
def nonceWidth : Nat := 16

/-- Modelled from the spec: the global maximum single-allocation size
enforced by `Limits::assert_size` (missing `gcache_limits.hpp`). -/
def maxSize : Nat := 2 ^ 32

/-- Modelled from the spec: the predicate `Limits::assert_size` checks; a
size passes the global size-limit check iff it does not exceed the
system-wide maximum. -/
def sizeOK (s : Nat) : Prop := s ≤ maxSize

instance (s : Nat) : Decidable (sizeOK s) := by unfold sizeOK; infer_instance

/-- Source `Page::aligned_size`: round up to the alignment boundary
(`GU_ALIGN`). -/
def aligned_size (s : Nat) : Nat := 8 * ((s + 7) / 8)

/-- Modelled from the spec: `MemOps::BH_aligned_size` — the aligned size of
a payload together with its preceding buffer header (missing
`gcache_memops.hpp`). -/
def BH_aligned_size (s : Nat) : Nat := aligned_size (s + bhSize)

/-- Modelled from the spec: `Page::meta_size` — per-page metadata overhead:
the aligned nonce block at the head plus the (released) key-metadata block
(missing `gcache_page.hpp`). -/
def meta_size (keySize : Nat) : Nat := aligned_size nonceWidth + BH_aligned_size keySize

/-! ### Nonce (`gcache::Page::Nonce`)

A nonce is a fixed-width random value; we model its byte content as a
`List Nat` of length `nonceWidth`.  The random constructor is modelled by
quantifying over an arbitrary well-formed byte list. -/

/-- Wellformedness of a nonce value: exactly `nonceWidth` bytes. -/
def nonceWF (n : List Nat) : Prop := n.length = nonceWidth

instance (n : List Nat) : Decidable (nonceWF n) := by unfold nonceWF; infer_instance

/-- Source `nonce_serial_size`: how many bytes to move given the buffer
size. -/
def nonce_serial_size (bufSize : Nat) : Nat := min nonceWidth bufSize

/-- Source `Nonce::Nonce(const void* ptr, size_t size)`: value-initialize
`d` to zero, then copy `nonce_serial_size size` bytes from the source
buffer. -/
def nonceFromBuf (src : List Nat) (size : Nat) : List Nat :=
  let k := nonce_serial_size size
  src.take k ++ List.replicate (nonceWidth - k) 0

/-- Source `Nonce::write(ptr, size)`: copy `nonce_serial_size size` bytes
of the nonce to the start of the buffer; returns the updated buffer and
the count written (the C function returns the count). -/
def nonceWrite (n : List Nat) (buf : List Nat) : List Nat × Nat :=
  let k := nonce_serial_size buf.length
  (n.take k ++ buf.drop k, k)

/-! ### Buffer headers -/

/-- Structured view of the external `BufferHeader` fields this core reads
and writes: total slot size, the global sequence number (the sentinel value
`SEQNO_NONE` is modelled as `0`), and the released flag. -/
structure BufferHeader where
  size : Nat
  seqnoG : Int
  released : Bool
deriving DecidableEq, Repr

/-- Header value written by the source `BH_clear` (zero-filled header):
the zero-size terminal sentinel. -/
def bhZero : BufferHeader := ⟨0, 0, false⟩

/-- Lookup of the header stored at a byte offset (newest write wins). -/
def hdrGet (hs : List (Nat × BufferHeader)) (off : Nat) : Option BufferHeader :=
  (hs.find? (fun e => e.1 == off)).map (fun e => e.2)

/-- Store a header at a byte offset. -/
def hdrSet (hs : List (Nat × BufferHeader)) (off : Nat) (h : BufferHeader) :
    List (Nat × BufferHeader) :=
  (off, h) :: hs

/-! ### Byte memory -/

/-- Overwrite `bs.length` bytes of `mem` starting at offset `off`
(`memcpy(mem + off, bs, bs.length)`). -/
def writeBytes (mem : List Nat) (off : Nat) (bs : List Nat) : List Nat :=
  mem.take off ++ bs ++ mem.drop (off + bs.length)

/-! ### Page (`gcache::Page`) -/

/-- State of one `gcache::Page`.  `name` stands for the page file name
(pages are named by their creation sequence number); `next` is the byte
offset of the free cursor `next_` from `mmap_.ptr`; `mem` holds the bytes
this core has written into the mapping; `hdrs` the structured buffer
headers present in the mapping. -/
structure Page where
  name : Nat
  mmapSize : Nat
  nonce : List Nat
  keySize : Nat
  next : Nat
  space : Nat
  used : Nat
  mem : List Nat
  hdrs : List (Nat × BufferHeader)
deriving DecidableEq, Repr

namespace Page

/-- Modelled from the spec: `Page::size()` (missing `gcache_page.hpp`)
returns the page's mapped size — the design document states that
`total_size_` sums "the mapped sizes" of the pages in the queue, and the
accounting in `new_page`/`delete_page` requires the value to be constant
over the page's lifetime. -/
def size (p : Page) : Nat := p.mmapSize

/-- Source `Page::Page` constructor: the backing file and mapping are
created with size `aligned_size size`; the nonce is serialized at the
cursor (which is at the head), and the cursor/space are advanced past the
aligned nonce footprint.  The I/O itself is external; its failure is
modelled at the call sites (`malloc_new`). -/
def construct (name : Nat) (nonce : List Nat) (keySize : Nat) (size : Nat) : Page :=
  let m := aligned_size size
  let mem0 := List.replicate m 0
  let w := nonceWrite nonce mem0
  let nsz := aligned_size w.2
  { name := name, mmapSize := m, nonce := nonce, keySize := keySize,
    next := nsz, space := m - nsz, used := 0,
    mem := w.1, hdrs := [] }

/-- Source `Page::close()`: write an empty header at the cursor to signify
the end of the chain — but only when at least a header's worth of space
remains. -/
def close (p : Page) : Page :=
  if bhSize ≤ p.space then { p with hdrs := hdrSet p.hdrs p.next bhZero } else p

/-- Source `Page::malloc`: bump allocation.  `Limits::assert_size` is a
precondition carried as a hypothesis (`sizeOK`) by the theorems. -/
def malloc (p : Page) (size : Nat) : Option Nat × Page :=
  let a := aligned_size size
  if a ≤ p.space then
    (some p.next, { p with space := p.space - a, next := p.next + a, used := p.used + 1 })
  else
    (none, p.close)

/-- Source `Page::realloc`: growing in place always fails (`assert(0);
return NULL;` — all logic must go to PageStore). -/
def reallocInPlace (_p : Page) (_off : Nat) (_size : Nat) : Option Nat := none

/-- Source `Page::reset`: fatal abort (modelled as `none`) when buffers
are still in use; otherwise the nonce is re-serialized at the current
cursor `next_` with the current `space_` as the buffer bound, and
`space_`/`next_` are recomputed from the resulting footprint. -/
def reset (p : Page) : Option Page :=
  if p.used > 0 then none
  else
    let k := nonce_serial_size p.space
    let nsz := aligned_size k
    some { p with mem := writeBytes p.mem p.next (p.nonce.take k),
                  space := p.mmapSize - nsz, next := nsz }

/-- Modelled from the spec: releasing a slot from its page decrements the
in-use counter (`release_slot` in the design document; the member lives in
the missing `gcache_page.hpp`). -/
def discard (p : Page) : Page := { p with used := p.used - 1 }

end Page

/-! ### PageStore (`gcache::PageStore`) -/

/-- State of the `gcache::PageStore` page pool.  `pages` is the queue,
oldest first; `current` holds the name of the page accepting first-time
allocations (the C++ `current_` pointer, `none` = null); `deleted` is the
trace of page names whose backing-file deletion was dispatched to the
background worker, in dispatch order; `dropped` traces the pages given the
best-effort OS cache-drop hint.  The encryption key is opaque to this
core; only its size matters (`encKeySize`). -/
structure PageStore where
  keepSize : Nat
  pageSize : Nat
  encKeySize : Nat
  count : Nat
  pages : List Page
  current : Option Nat
  totalSize : Nat
  deleted : List Nat
  dropped : List Nat
deriving DecidableEq, Repr

namespace PageStore

/-- Source `PageStore::PageStore`: empty pool. -/
def init (keepSize pageSize : Nat) : PageStore :=
  { keepSize := keepSize, pageSize := pageSize, encKeySize := 0, count := 0,
    pages := [], current := none, totalSize := 0, deleted := [], dropped := [] }

/-- Find a page of the queue by name. -/
def findPage (ps : PageStore) (n : Nat) : Option Page :=
  ps.pages.find? (fun p => p.name == n)

/-- The page `current_` points at, if any. -/
def curPage (ps : PageStore) : Option Page :=
  ps.current.bind (fun n => ps.findPage n)

/-- Replace the first page named `n` by `f` applied to it. -/
def replacePage : List Page → Nat → (Page → Page) → List Page
  | [], _, _ => []
  | p :: r, n, f => if p.name == n then f p :: r else p :: replacePage r n f

/-- Apply `f` to the page named `n` (the C++ code mutates the queue
element through the `current_`/`page` pointer; `find?`/`replacePage` both
resolve the name to the first such element). -/
def setPage (ps : PageStore) (n : Nat) (f : Page → Page) : PageStore :=
  { ps with pages := replacePage ps.pages n f }

/-- Key-metadata block written on a fresh page by `new_page`: allocate
`kb` bytes on the page, mark the block's header released
(the design document: the key block is released so recovery skips it as
dead data), and release it from the page. -/
def pageAddKeyBlock (kb : Nat) (q : Page) : Page :=
  let r := q.malloc kb
  match r.1 with
  | some off => Page.discard { r.2 with hdrs := hdrSet r.2.hdrs off ⟨kb, 0, true⟩ }
  | none => r.2

/-- Nonce supplied to new pages.  The random value is irrelevant to every
pool-level claim; the page-level theorems quantify over arbitrary
nonces. -/
def defaultNonce : List Nat := List.replicate nonceWidth 0

/-- Source `PageStore::new_page`: construct a page of the given size, push
it at the back of the queue, add its size to the running total, make it
current, bump the naming counter; then allocate, mark released and discard
the key-metadata block on the fresh page (per the design document the key
block's header is released so the block is skipped as dead data). -/
def new_page (ps : PageStore) (size : Nat) : PageStore :=
  let pg := Page.construct ps.count defaultNonce ps.encKeySize size
  let ps1 := { ps with pages := ps.pages ++ [pg],
                       totalSize := ps.totalSize + pg.size,
                       current := some pg.name,
                       count := ps.count + 1 }
  ps1.setPage pg.name (pageAddKeyBlock (BH_aligned_size ps.encKeySize))

/-- Modelled from the spec: `page_cleanup_needed` (missing
`gcache_page_store.hpp`) — the retention predicate holds while the total
live size exceeds the keep-size budget. -/
def cleanupNeeded (ps : PageStore) : Bool := decide (ps.keepSize < ps.totalSize)

/-- Source `PageStore::delete_page`: inspect the front of the queue; if it
still has users, fail; otherwise pop it, subtract its size from the
running total, null `current_` if it pointed there, and dispatch the
file deletion to the single-slot background worker (modelled by the
`deleted` trace; thread hand-off and join are external).  The C++ code
reads `pages_.front()` and is only called on a nonempty queue; the model
returns `false` on an empty queue. -/
def delete_page (ps : PageStore) : Bool × PageStore :=
  match ps.pages with
  | [] => (false, ps)
  | pg :: rest =>
    if pg.used > 0 then (false, ps)
    else
      (true, { ps with pages := rest,
                       totalSize := ps.totalSize - pg.size,
                       current := if ps.current = some pg.name then none else ps.current,
                       deleted := ps.deleted ++ [pg.name] })

/-- Fuel-indexed unfolding of the `cleanup` loop
(`while (page_cleanup_needed() && delete_page()) {}`). -/
def cleanupFuel : Nat → PageStore → PageStore
  | 0, ps => ps
  | Nat.succ n, ps =>
    if cleanupNeeded ps then
      let r := ps.delete_page
      if r.1 then cleanupFuel n r.2 else r.2
    else ps

/-- Source `PageStore::cleanup`: each successful `delete_page` shortens the
queue, so the queue length bounds the iteration count. -/
def cleanup (ps : PageStore) : PageStore := cleanupFuel ps.pages.length ps

/-- Fuel-indexed unfolding of the `reset` loop
(`while (pages_.size() > 0 && delete_page()) {}`). -/
def resetFuel : Nat → PageStore → PageStore
  | 0, ps => ps
  | Nat.succ n, ps =>
    if ps.pages.isEmpty then ps
    else
      let r := ps.delete_page
      if r.1 then resetFuel n r.2 else r.2

/-- Source `PageStore::reset`: delete pages from the front until the queue
is empty or the front page still has users. -/
def reset (ps : PageStore) : PageStore := resetFuel ps.pages.length ps

/-- Source `PageStore::~PageStore`: runs the same deletion loop as
`reset` (then joins the worker); pages that could not be deleted remain
and are logged as leaked. -/
def destructor (ps : PageStore) : PageStore := ps.reset

/-- Source `PageStore::set_enc_key`: force a page boundary — create a new
page sized for at least the outgoing key's metadata footprint, then adopt
the new key. -/
def set_enc_key (ps : PageStore) (newKeySize : Nat) : PageStore :=
  let meta := meta_size ps.encKeySize
  let ps1 := ps.new_page (if meta > ps.pageSize then meta else ps.pageSize)
  { ps1 with encKeySize := newKeySize }

/-- Source `PageStore::malloc_new`: create a page sized
`max(page_size_, size + meta_size)`, retry the allocation on it, run
retention cleanup.  Page creation is external I/O that can throw;
`createOk = false` models the throw, which the source catches and logs,
returning null with the pool untouched (the constructor throws before any
pool state is mutated). -/
def malloc_new (ps : PageStore) (size : Nat) (createOk : Bool) :
    Option (Nat × Nat) × PageStore :=
  if createOk then
    let minSize := size + meta_size ps.encKeySize
    let ps1 := ps.new_page (if ps.pageSize > minSize then ps.pageSize else minSize)
    match ps1.curPage with
    | some pg =>
        let r := pg.malloc size
        let ps2 := ps1.setPage pg.name (fun q => (q.malloc size).2)
        (r.1.map (fun off => (pg.name, off)), ps2.cleanup)
    | none => (none, ps1.cleanup)
  else (none, ps)

/-- Source `PageStore::malloc`: try the current page; on success return
its pointer; on failure hint the OS to drop the retired page's cache and
fall through to `malloc_new`. -/
def malloc (ps : PageStore) (size : Nat) (createOk : Bool) :
    Option (Nat × Nat) × PageStore :=
  match ps.curPage with
  | some pg =>
      let r := pg.malloc size
      let ps1 := ps.setPage pg.name (fun q => (q.malloc size).2)
      match r.1 with
      | some off => (some (pg.name, off), ps1)
      | none =>
          let ps2 := { ps1 with dropped := ps1.dropped ++ [pg.name] }
          ps2.malloc_new size createOk
  | none => ps.malloc_new size createOk

/-- Source `PageStore::realloc`: the pointer is modelled as
`(page, userOff)` where the slot's header sits at `userOff - bhSize`
(`ptr2BH`) and carries the owning page (`BH_ctx`).  Growing in place
always fails; a fresh allocation is made, `min(old payload, size)` bytes
are copied into it, and the old slot is marked released and released from
its owning page.  If the fresh allocation fails the old slot is left
untouched. -/
def realloc (ps : PageStore) (pgName userOff size : Nat) (createOk : Bool) :
    Option (Nat × Nat) × PageStore :=
  match ps.findPage pgName with
  | none => (none, ps)
  | some p =>
    match hdrGet p.hdrs (userOff - bhSize) with
    | none => (none, ps)
    | some bh =>
      match p.reallocInPlace userOff size with
      | some off => (some (pgName, off), ps)
      | none =>
        let r := ps.malloc_new size createOk
        match r.1 with
        | none => (none, r.2)
        | some ret =>
          let ptrSize := bh.size - bhSize
          let k := if size > ptrSize then ptrSize else size
          let bytes := (p.mem.drop userOff).take k
          let ps2 := r.2.setPage ret.1 (fun np =>
            { np with mem := writeBytes np.mem ret.2 bytes })
          let ps3 := ps2.setPage pgName (fun op =>
            { op with hdrs := hdrSet op.hdrs (userOff - bhSize) { bh with released := true },
                      used := op.used - 1 })
          (some ret, ps3)

/-- Modelled from the spec: the upstream `release(pointer)` contract
releases a slot from its owning page, decrementing the page's in-use
count (the pool-side member `release` lives in the missing
`gcache_page_store.hpp`). -/
def release (ps : PageStore) (pgName : Nat) : PageStore :=
  ps.setPage pgName Page.discard

end PageStore

/-! ### Pool operations and reachability -/

/-- One upstream operation on the pool.  `createOk` arguments model
whether the external page-file creation succeeds at that call. -/
inductive Op where
  | alloc (size : Nat) (createOk : Bool)
  | reallocOp (pgName userOff size : Nat) (createOk : Bool)
  | setKey (newKeySize : Nat)
  | cleanupOp
  | resetOp
  | releaseOp (pgName : Nat)
deriving DecidableEq, Repr

/-- State after one operation. -/
def applyOp (ps : PageStore) : Op → PageStore
  | Op.alloc size ok => (ps.malloc size ok).2
  | Op.reallocOp pg off size ok => (ps.realloc pg off size ok).2
  | Op.setKey k => ps.set_enc_key k
  | Op.cleanupOp => ps.cleanup
  | Op.resetOp => ps.reset
  | Op.releaseOp pg => ps.release pg

/-- Pointer returned to the caller by one operation, when the operation
returns one (a first-time allocation satisfied by some page). -/
def opResult (ps : PageStore) : Op → Option (Nat × Nat)
  | Op.alloc size ok => (ps.malloc size ok).1
  | Op.reallocOp pg off size ok => (ps.realloc pg off size ok).1
  | _ => none

/-- State after a sequence of operations. -/
def runOps (ps : PageStore) : List Op → PageStore
  | [] => ps
  | op :: rest => runOps (applyOp ps op) rest

/-- Pointers returned to callers over a sequence of operations. -/
def runResults (ps : PageStore) : List Op → List (Nat × Nat)
  | [] => []
  | op :: rest => (opResult ps op).toList ++ runResults (applyOp ps op) rest

/-- Pool states reachable from a freshly constructed pool by upstream
operations. -/
inductive Reachable : PageStore → Prop
  | init (keepSize pageSize : Nat) : Reachable (PageStore.init keepSize pageSize)
  | step {ps : PageStore} (op : Op) : Reachable ps → Reachable (applyOp ps op)

/-- Sum of the mapped sizes of a list of pages. -/
def sumSizes (l : List Page) : Nat := (l.map Page.size).sum

/-- Names of a list of pages, in queue order. -/
def pageNames (l : List Page) : List Nat := l.map Page.name

/-- A page name that the pool has retired from first-time allocation: the
name was issued in the past (`p < count`) and `current_` does not point at
it. -/
def Retired (ps : PageStore) (p : Nat) : Prop := p < ps.count ∧ ps.current ≠ some p

/-- A page of the pool that still has buffers in use. -/
def LiveUsed (ps : PageStore) (n : Nat) : Prop :=
  ∃ pg ∈ ps.pages, pg.name = n ∧ 0 < pg.used

/-- Wellformedness of page naming: every page in the queue was named by a
past value of the monotone counter. -/
def NamesOK (ps : PageStore) : Prop := ∀ pg ∈ ps.pages, pg.name < ps.count

/-! ### Concrete scenario states used by counterexamples and witnesses -/

/-- Pool with keep-size 0 and page size 64 after one 8-byte allocation:
page 0 holds the caller's buffer (`used = 1`) and has 8 bytes of space
left. -/
def scenA : PageStore := ((PageStore.init 0 64).malloc 8 true).2

/-- The same pool after a 16-byte allocation that page 0 cannot satisfy:
page 1 is created and holds the buffer. -/
def scenB : PageStore := (scenA.malloc 16 true).2

/-- The same pool after the caller released the page-1 buffer: the queue
is [page 0 (in use), page 1 (drained)]. -/
def scenC : PageStore := scenB.release 1

/-- The pool `scenA` after a 16-byte allocation during which creating the
replacement page failed: the allocation returned null and page 0 is still
current. -/
def scenFail : PageStore := (scenA.malloc 16 false).2

/-- The page the pool `scenA` currently allocates from (page 0 after its
key block and one 8-byte allocation). -/
def scenAPage : Page :=
  ((PageStore.pageAddKeyBlock (BH_aligned_size 0)
    (Page.construct 0 PageStore.defaultNonce 0 64)).malloc 8).2

/-- Hand-built page used to exercise `realloc`: one live 40-byte slot
(32-byte header at offset 16, 8 payload bytes at offset 48) written by the
external layer. -/
def pageRe : Page :=
  { name := 0, mmapSize := 64, nonce := List.replicate nonceWidth 0, keySize := 0,
    next := 56, space := 8, used := 1, mem := List.range 64,
    hdrs := [(16, ⟨40, 0, false⟩)] }

/-- Hand-built pool holding `pageRe`, used to exercise `realloc`. -/
def scenRe : PageStore :=
  { keepSize := 0, pageSize := 64, encKeySize := 0, count := 1,
    pages := [pageRe], current := some 0, totalSize := 64,
    deleted := [], dropped := [] }

/-! ## Supporting lemmas -/

theorem nonceWrite_length (n buf : List Nat) (h : nonceWF n) :
    (nonceWrite n buf).1.length = buf.length := by
  unfold nonceWrite nonce_serial_size
  simp only [List.length_append, List.length_take, List.length_drop]
  unfold nonceWF at h
  omega

/-- Case analysis of `Page::malloc`: success bumps the counters and leaves
memory alone; failure leaves the counters and byte memory alone and
applies `close()`, which writes the sentinel exactly when a header
fits. -/
theorem malloc_cases (p : Page) (size : Nat) :
    (aligned_size size ≤ p.space →
      (p.malloc size).1 = some p.next ∧
      (p.malloc size).2.next = p.next + aligned_size size ∧
      (p.malloc size).2.space = p.space - aligned_size size ∧
      (p.malloc size).2.used = p.used + 1 ∧
      (p.malloc size).2.mem = p.mem ∧
      (p.malloc size).2.hdrs = p.hdrs) ∧
    (p.space < aligned_size size →
      (p.malloc size).1 = none ∧
      (p.malloc size).2.next = p.next ∧
      (p.malloc size).2.space = p.space ∧
      (p.malloc size).2.used = p.used ∧
      (p.malloc size).2.mem = p.mem ∧
      (bhSize ≤ p.space → hdrGet (p.malloc size).2.hdrs p.next = some bhZero) ∧
      (p.space < bhSize → (p.malloc size).2.hdrs = p.hdrs)) := by
  constructor
  · intro hfit
    simp [Page.malloc, hfit]
  · intro hfull
    have hnot : ¬ aligned_size size ≤ p.space := by omega
    unfold Page.malloc
    simp only [hnot, if_false]
    unfold Page.close
    by_cases hroom : bhSize ≤ p.space
    · simp [hroom, hdrGet, hdrSet]
    · have : p.space < bhSize := by omega
      simp [hroom]

/-! ## C10 — nonce serialization round-trip -/

/-- C10: serializing a nonce into a buffer at least as large as the nonce
width writes exactly the nonce width, returns that count, and
reconstructing a nonce from the written buffer yields the original value;
with a shorter buffer of size `k`, exactly `k` bytes are written and
returned, and the reconstruction matches the original on the `k`-byte
prefix with the remaining bytes zero. -/
theorem nonce_roundtrip (n : List Nat) (hn : nonceWF n) (buf : List Nat) :
    (nonceWidth ≤ buf.length →
      (nonceWrite n buf).2 = nonceWidth ∧
      nonceFromBuf (nonceWrite n buf).1 (nonceWrite n buf).1.length = n) ∧
    (buf.length < nonceWidth →
      (nonceWrite n buf).2 = buf.length ∧
      nonceFromBuf (nonceWrite n buf).1 (nonceWrite n buf).1.length =
        n.take buf.length ++ List.replicate (nonceWidth - buf.length) 0) := by
  have hlen := nonceWrite_length n buf hn
  unfold nonceWF at hn
  constructor
  · intro hge
    have hk : nonce_serial_size buf.length = nonceWidth := by
      unfold nonce_serial_size; omega
    constructor
    · simp [nonceWrite, hk]
    · unfold nonceFromBuf nonce_serial_size
      rw [hlen]
      have hmin : min nonceWidth buf.length = nonceWidth := by omega
      rw [hmin]
      simp only [Nat.sub_self, List.replicate_zero, List.append_nil]
      unfold nonceWrite nonce_serial_size
      rw [hmin]
      have htn : n.take nonceWidth = n := List.take_of_length_le (by omega)
      show List.take nonceWidth (List.take nonceWidth n ++ List.drop nonceWidth buf) = n
      rw [htn]
      exact (List.take_append_of_le_length (by omega)).trans htn
  · intro hlt
    have hk : nonce_serial_size buf.length = buf.length := by
      unfold nonce_serial_size; omega
    constructor
    · simp [nonceWrite, hk]
    · unfold nonceFromBuf nonce_serial_size
      rw [hlen]
      have hmin : min nonceWidth buf.length = buf.length := by omega
      rw [hmin]
      unfold nonceWrite nonce_serial_size
      rw [hmin]
      simp only [List.drop_length, List.append_nil]
      congr 1
      rw [List.take_take, min_self]

/-- Witness for C10 at a concrete nonce and concrete long and short
buffers. -/
theorem nonce_roundtrip_witness :
    (nonceWF (List.range 16) ∧
      (nonceWidth ≤ (List.replicate 20 7).length →
        (nonceWrite (List.range 16) (List.replicate 20 7)).2 = nonceWidth ∧
        nonceFromBuf (nonceWrite (List.range 16) (List.replicate 20 7)).1
          (nonceWrite (List.range 16) (List.replicate 20 7)).1.length = List.range 16)) ∧
    ((nonceWrite (List.range 16) [9, 9, 9]).2 = 3 ∧
      nonceFromBuf (nonceWrite (List.range 16) [9, 9, 9]).1
          (nonceWrite (List.range 16) [9, 9, 9]).1.length =
        (List.range 16).take 3 ++ List.replicate 13 0) :=
  ⟨⟨by decide, (nonce_roundtrip (List.range 16) (by decide) (List.replicate 20 7)).1⟩,
    (nonce_roundtrip (List.range 16) (by decide) [9, 9, 9]).2 (by decide)⟩

/-! ## C1 — Page::malloc bump allocation -/

/-- C1 as stated fails: when the failing page has less than a header's
worth of space left (here zero), `close()` writes no end-of-chain
sentinel.  The page below is fully allocated (space 0); a further
allocation returns null and leaves the counters unchanged, but no sentinel
header appears at the cursor. -/
theorem page_malloc_counterexample :
    ((Page.construct 0 (List.range 16) 0 48).malloc 32).2.space = 0 ∧
    (((Page.construct 0 (List.range 16) 0 48).malloc 32).2.malloc 8).1 = none ∧
    (((Page.construct 0 (List.range 16) 0 48).malloc 32).2.malloc 8).2.hdrs = [] ∧
    hdrGet (((Page.construct 0 (List.range 16) 0 48).malloc 32).2.malloc 8).2.hdrs
      ((Page.construct 0 (List.range 16) 0 48).malloc 32).2.next = none := by
  decide

/-- C1 amended: for every page and size passing the global size-limit
check, if the aligned size fits the remaining space, `Page::malloc`
returns the current cursor, advances the cursor and decreases the space by
the aligned size, increments the in-use count, and touches no memory;
otherwise it returns null and leaves space, cursor, in-use count and byte
memory unchanged, writing the end-of-chain sentinel at the cursor when at
least a header's worth of space remains (and nothing otherwise). -/
theorem page_malloc_spec (p : Page) (size : Nat) (hs : sizeOK size) :
    (aligned_size size ≤ p.space →
      (p.malloc size).1 = some p.next ∧
      (p.malloc size).2.next = p.next + aligned_size size ∧
      (p.malloc size).2.space = p.space - aligned_size size ∧
      (p.malloc size).2.used = p.used + 1 ∧
      (p.malloc size).2.mem = p.mem ∧
      (p.malloc size).2.hdrs = p.hdrs) ∧
    (p.space < aligned_size size →
      (p.malloc size).1 = none ∧
      (p.malloc size).2.next = p.next ∧
      (p.malloc size).2.space = p.space ∧
      (p.malloc size).2.used = p.used ∧
      (p.malloc size).2.mem = p.mem ∧
      (bhSize ≤ p.space → hdrGet (p.malloc size).2.hdrs p.next = some bhZero) ∧
      (p.space < bhSize → (p.malloc size).2.hdrs = p.hdrs)) :=
  malloc_cases p size

/-- Witness for C1 (amended) at a concrete page: the 48-byte page has
32 bytes of space; an 8-byte allocation fits, a 64-byte one does not and
leaves the sentinel. -/
theorem page_malloc_spec_witness :
    (sizeOK 8 ∧
      ((Page.construct 0 (List.range 16) 0 48).malloc 8).1 =
        some (Page.construct 0 (List.range 16) 0 48).next) ∧
    (sizeOK 64 ∧
      hdrGet ((Page.construct 0 (List.range 16) 0 48).malloc 64).2.hdrs
        (Page.construct 0 (List.range 16) 0 48).next = some bhZero) :=
  ⟨⟨by decide, ((page_malloc_spec (Page.construct 0 (List.range 16) 0 48) 8
      (by decide)).1 (by decide)).1⟩,
    ⟨by decide, (((page_malloc_spec (Page.construct 0 (List.range 16) 0 48) 64
      (by decide)).2 (by decide)).2.2.2.2.2.1 (by decide))⟩⟩

/-! ## C5 — Page::reset -/

/-- C5 as stated fails: on a drained page whose remaining space has shrunk
below the nonce width, `reset()` serializes only `space_` nonce bytes, so
the restored space differs from the post-construction value.  A 48-byte
page has 32 usable bytes after construction; after a 24-byte allocation
and its release, space is 8, and reset restores space to 40, not 32. -/
theorem page_reset_counterexample :
    (Page.discard ((Page.construct 0 (List.range 16) 0 48).malloc 24).2).used = 0 ∧
    (Page.discard ((Page.construct 0 (List.range 16) 0 48).malloc 24).2).space = 8 ∧
    (Page.construct 0 (List.range 16) 0 48).space = 32 ∧
    ((Page.discard ((Page.construct 0 (List.range 16) 0 48).malloc 24).2).reset).map
      Page.space = some 40 ∧
    ((Page.discard ((Page.construct 0 (List.range 16) 0 48).malloc 24).2).reset).map
        Page.space ≠ some (Page.construct 0 (List.range 16) 0 48).space := by
  decide

/-- C5 amended: on a page with in-use count zero whose remaining space and
cursor are both at least the nonce width (true of every page that has not
undergone a degenerate reset), `reset()` does not abort, re-serializes the
nonce at the current cursor (leaving the head of the mapping untouched, so
the nonce bytes at the head are byte-identical before and after), and
restores the remaining space to the value it has immediately after
construction. -/
theorem page_reset_spec (p : Page) (hu : p.used = 0) (hn : nonceWF p.nonce)
    (hsp : nonceWidth ≤ p.space) (hnx : nonceWidth ≤ p.next)
    (hinv : p.next + p.space = p.mmapSize) (hmem : p.mem.length = p.mmapSize) :
    ∃ q, p.reset = some q ∧
      q.space = p.mmapSize - aligned_size nonceWidth ∧
      q.next = aligned_size nonceWidth ∧
      q.mem.take nonceWidth = p.mem.take nonceWidth ∧
      (∀ sz, aligned_size sz = p.mmapSize →
        (Page.construct p.name p.nonce p.keySize sz).space = q.space) := by
  unfold nonceWF at hn
  have hser : nonce_serial_size p.space = nonceWidth := by
    unfold nonce_serial_size; omega
  unfold Page.reset
  have hu2 : ¬ p.used > 0 := by omega
  simp only [hu2, if_false, hser]
  refine ⟨_, rfl, rfl, rfl, ?_, ?_⟩
  · unfold writeBytes
    have hlt : (p.mem.take p.next).length = p.next := by
      rw [List.length_take]; omega
    rw [List.append_assoc,
        @List.take_append_of_le_length _ (p.mem.take p.next)
          (p.nonce.take nonceWidth ++
            p.mem.drop (p.next + (p.nonce.take nonceWidth).length))
          nonceWidth (by omega),
        List.take_take]
    congr 1
    omega
  · intro sz hsz
    unfold Page.construct
    simp only [hsz]
    have hw : (nonceWrite p.nonce (List.replicate p.mmapSize 0)).2 = nonceWidth := by
      unfold nonceWrite nonce_serial_size
      simp only [List.length_replicate]
      omega
    rw [hw]

/-- Witness for C5 (amended) at a concrete drained page: a 64-byte page
after a released 16-byte allocation. -/
theorem page_reset_spec_witness :
    ((Page.discard ((Page.construct 3 (List.range 16) 0 64).malloc 16).2).used = 0 ∧
      nonceWF (Page.discard ((Page.construct 3 (List.range 16) 0 64).malloc 16).2).nonce) ∧
    (∃ q, (Page.discard ((Page.construct 3 (List.range 16) 0 64).malloc 16).2).reset = some q ∧
      q.space =
        (Page.discard ((Page.construct 3 (List.range 16) 0 64).malloc 16).2).mmapSize -
          aligned_size nonceWidth ∧
      q.next = aligned_size nonceWidth ∧
      q.mem.take nonceWidth =
        (Page.discard ((Page.construct 3 (List.range 16) 0 64).malloc 16).2).mem.take
          nonceWidth ∧
      (∀ sz, aligned_size sz =
          (Page.discard ((Page.construct 3 (List.range 16) 0 64).malloc 16).2).mmapSize →
        (Page.construct 3 (List.range 16) 0 sz).space = q.space)) :=
  ⟨⟨by decide, by decide⟩,
    page_reset_spec _ (by decide) (by decide) (by decide) (by decide) (by decide) (by decide)⟩

/-! ## C6 — terminal sentinel on page retirement -/

set_option maxRecDepth 4000 in
/-- C6 as stated fails: a key change retires the current page from
first-time allocation without writing any sentinel on it.  Below, after a
single allocation on a 128-byte page, `set_enc_key` moves `current_` to a
fresh page; the retired page has ample space for a header (72 bytes) yet
carries no header at its cursor. -/
theorem sentinel_counterexample :
    (((PageStore.init 0 128).malloc 8 true).2.current = some 0) ∧
    (((PageStore.init 0 128).malloc 8 true).2.set_enc_key 5).current = some 1 ∧
    ((((PageStore.init 0 128).malloc 8 true).2.set_enc_key 5).findPage 0).map
      Page.space = some 72 ∧
    ((((PageStore.init 0 128).malloc 8 true).2.set_enc_key 5).findPage 0).map
      (fun p => hdrGet p.hdrs p.next) = some none := by
  decide

/-- C6 amended: the zero-size terminal sentinel is written immediately
after the last allocation whenever a page is closed because an allocation
failed for lack of space and at least a header's worth of space remains;
a page retired by a key change gets no sentinel, and neither does a page
whose leftover space is smaller than a header. -/
theorem sentinel_on_alloc_failure (p : Page) (size : Nat) (hs : sizeOK size)
    (hfull : p.space < aligned_size size) (hroom : bhSize ≤ p.space) :
    (p.malloc size).1 = none ∧
    hdrGet (p.malloc size).2.hdrs p.next = some bhZero := by
  have h := (malloc_cases p size).2 hfull
  exact ⟨h.1, h.2.2.2.2.2.1 hroom⟩

/-- Witness for C6 (amended): a fresh 48-byte page (32 bytes of space)
fails a 64-byte allocation and carries the sentinel at its cursor. -/
theorem sentinel_on_alloc_failure_witness :
    (sizeOK 64 ∧ (Page.construct 0 (List.range 16) 0 48).space < aligned_size 64 ∧
      bhSize ≤ (Page.construct 0 (List.range 16) 0 48).space) ∧
    hdrGet ((Page.construct 0 (List.range 16) 0 48).malloc 64).2.hdrs
      (Page.construct 0 (List.range 16) 0 48).next = some bhZero :=
  ⟨⟨by decide, by decide, by decide⟩,
    (sentinel_on_alloc_failure (Page.construct 0 (List.range 16) 0 48) 64
      (by decide) (by decide) (by decide)).2⟩

/-! ## C2 — cleanup eviction order -/

/-- Behaviour of the bounded cleanup loop: it removes a prefix of drained
pages from the front, dispatches their deletions in queue order, ran only
while the retention predicate held, and stops on an empty queue, a failed
retention predicate, or an in-use front page. -/
theorem cleanupFuel_spec (n : Nat) (ps : PageStore) (hn : ps.pages.length ≤ n) :
    ∃ k, (PageStore.cleanupFuel n ps).pages = ps.pages.drop k ∧
      (∀ pg ∈ ps.pages.take k, pg.used = 0) ∧
      (PageStore.cleanupFuel n ps).deleted = ps.deleted ++ pageNames (ps.pages.take k) ∧
      (∀ i < k, ps.keepSize < ps.totalSize - sumSizes (ps.pages.take i)) ∧
      ((PageStore.cleanupFuel n ps).pages = [] ∨ PageStore.cleanupNeeded (PageStore.cleanupFuel n ps) = false ∨
        ∃ h t, (PageStore.cleanupFuel n ps).pages = h :: t ∧ 0 < h.used) := by
  induction n generalizing ps with
  | zero =>
    have hnil : ps.pages = [] := List.length_eq_zero.mp (by omega)
    have hres : PageStore.cleanupFuel 0 ps = ps := rfl
    exact ⟨0, by rw [hres, List.drop_zero], by simp, by simp [hres, pageNames], by omega,
      Or.inl (by rw [hres, hnil])⟩
  | succ n ih =>
    by_cases hneed : PageStore.cleanupNeeded ps
    · cases hps : ps.pages with
      | nil =>
        have hdel : ps.delete_page = (false, ps) := by
          unfold PageStore.delete_page; rw [hps]
        have hres : PageStore.cleanupFuel (n + 1) ps = ps := by
          simp [PageStore.cleanupFuel, hneed, hdel]
        exact ⟨0, by rw [hres, List.drop_zero]; exact hps, by simp, by simp [hres, pageNames],
          by omega, Or.inl (by rw [hres, hps])⟩
      | cons pg rest =>
        by_cases hu : 0 < pg.used
        · have hdel : ps.delete_page = (false, ps) := by
            unfold PageStore.delete_page; rw [hps]; simp [hu]
          have hres : PageStore.cleanupFuel (n + 1) ps = ps := by
            simp [PageStore.cleanupFuel, hneed, hdel]
          exact ⟨0, by rw [hres, List.drop_zero]; exact hps, by simp, by simp [hres, pageNames],
            by omega, Or.inr (Or.inr ⟨pg, rest, by rw [hres, hps], hu⟩)⟩
        · set ps2 : PageStore :=
            { ps with pages := rest,
                      totalSize := ps.totalSize - pg.size,
                      current := if ps.current = some pg.name then none else ps.current,
                      deleted := ps.deleted ++ [pg.name] } with hps2
          have hdel : ps.delete_page = (true, ps2) := by
            unfold PageStore.delete_page; rw [hps]; simp [hu, hps2]
          have hres : PageStore.cleanupFuel (n + 1) ps = PageStore.cleanupFuel n ps2 := by
            simp [PageStore.cleanupFuel, hneed, hdel]
          have hlen2 : ps2.pages.length ≤ n := by
            have : ps.pages.length = rest.length + 1 := by rw [hps]; simp
            simp only [hps2]
            omega
          obtain ⟨k2, hpg2, hus2, hdl2, hnd2, hstop2⟩ := ih ps2 hlen2
          refine ⟨k2 + 1, ?_, ?_, ?_, ?_, ?_⟩
          · rw [hres]
            simpa [hps2] using hpg2
          · intro q hq
            simp only [List.take_succ_cons, List.mem_cons] at hq
            rcases hq with rfl | hq
            · omega
            · exact hus2 q hq
          · rw [hres, hdl2]
            simp [pageNames, hps2]
          · intro i hi
            cases i with
            | zero =>
              have : ps.keepSize < ps.totalSize := by
                have := hneed
                unfold PageStore.cleanupNeeded at this
                exact of_decide_eq_true this
              simpa [sumSizes] using this
            | succ j =>
              have hj : j < k2 := by omega
              have := hnd2 j hj
              simp only [hps2] at this
              simp only [List.take_succ_cons]
              have hsum : sumSizes (pg :: rest.take j) = pg.size + sumSizes (rest.take j) := by
                simp [sumSizes]
              rw [hsum, ← Nat.sub_sub]
              exact this
          · rw [hres]
            exact hstop2
    · have hres : PageStore.cleanupFuel (n + 1) ps = ps := by
        simp [PageStore.cleanupFuel, hneed]
      refine ⟨0, by rw [hres, List.drop_zero], by simp, by simp [hres, pageNames], by omega,
        Or.inr (Or.inl ?_)⟩
      rw [hres]
      simpa using hneed

/-- C2: cleanup removes drained pages strictly oldest-first: the surviving
queue is a suffix, every removed page had in-use count zero, deletions are
dispatched in queue order, each removal happened while the retention
predicate still held, and the loop stops exactly on an empty queue, a
satisfied budget, or the first in-use page at the front. -/
theorem cleanup_oldest_first (ps : PageStore) :
    ∃ k, (ps.cleanup).pages = ps.pages.drop k ∧
      (∀ pg ∈ ps.pages.take k, pg.used = 0) ∧
      (ps.cleanup).deleted = ps.deleted ++ pageNames (ps.pages.take k) ∧
      (∀ i < k, ps.keepSize < ps.totalSize - sumSizes (ps.pages.take i)) ∧
      ((ps.cleanup).pages = [] ∨ PageStore.cleanupNeeded (ps.cleanup) = false ∨
        ∃ h t, (ps.cleanup).pages = h :: t ∧ 0 < h.used) :=
  cleanupFuel_spec ps.pages.length ps (Nat.le_refl _)

/-! ## C8 — reset / teardown -/

/-- C8 as stated fails: `reset` stops at the first in-use page, so a
drained page behind it survives teardown undeleted.  In `scenC` the queue
is [page 0 (used 1), page 1 (used 0)]; reset deletes nothing. -/
theorem pool_reset_counterexample :
    scenC.pages.map (fun p => (p.name, p.used)) = [(0, 1), (1, 0)] ∧
    (scenC.reset).pages.map (fun p => (p.name, p.used)) = [(0, 1), (1, 0)] ∧
    (scenC.reset).deleted = [] := by
  decide

/-- Budget-independence of `delete_page`. -/
theorem delete_page_keepSize (ps : PageStore) (b : Nat) :
    (PageStore.delete_page { ps with keepSize := b }) =
      ((ps.delete_page).1, { (ps.delete_page).2 with keepSize := b }) := by
  cases hp : ps.pages with
  | nil => simp [PageStore.delete_page, hp]
  | cons pg rest =>
    by_cases hu : 0 < pg.used
    · simp [PageStore.delete_page, hp, hu]
    · simp [PageStore.delete_page, hp, hu]

/-- Budget-independence of the reset loop. -/
theorem resetFuel_keepSize (n : Nat) (ps : PageStore) (b : Nat) :
    PageStore.resetFuel n { ps with keepSize := b } = { PageStore.resetFuel n ps with keepSize := b } := by
  induction n generalizing ps with
  | zero => rfl
  | succ n ih =>
    show PageStore.resetFuel (n + 1) _ = _
    unfold PageStore.resetFuel
    by_cases hempty : ps.pages.isEmpty
    · simp [hempty]
    · simp only [hempty, if_false, Bool.false_eq_true, delete_page_keepSize]
      by_cases hdel : (ps.delete_page).1
      · simp [hdel, ih]
      · simp [hdel]

/-- Behaviour of the bounded reset loop: deletes the longest drained
prefix, in order, and stops on an empty queue or an in-use front page. -/
theorem resetFuel_spec (n : Nat) (ps : PageStore) (hn : ps.pages.length ≤ n) :
    ∃ k, (PageStore.resetFuel n ps).pages = ps.pages.drop k ∧
      (∀ pg ∈ ps.pages.take k, pg.used = 0) ∧
      (PageStore.resetFuel n ps).deleted = ps.deleted ++ pageNames (ps.pages.take k) ∧
      ((PageStore.resetFuel n ps).pages = [] ∨
        ∃ h t, (PageStore.resetFuel n ps).pages = h :: t ∧ 0 < h.used) := by
  induction n generalizing ps with
  | zero =>
    have hnil : ps.pages = [] := List.length_eq_zero.mp (by omega)
    have hres : PageStore.resetFuel 0 ps = ps := rfl
    exact ⟨0, by rw [hres, List.drop_zero], by simp, by simp [hres, pageNames],
      Or.inl (by rw [hres, hnil])⟩
  | succ n ih =>
    cases hps : ps.pages with
    | nil =>
      have hempty : ps.pages.isEmpty := by rw [hps]; rfl
      have hres : PageStore.resetFuel (n + 1) ps = ps := by
        simp [PageStore.resetFuel, hempty]
      exact ⟨0, by rw [hres, List.drop_zero]; exact hps, by simp, by simp [hres, pageNames],
        Or.inl (by rw [hres, hps])⟩
    | cons pg rest =>
      have hempty : ps.pages.isEmpty = false := by rw [hps]; rfl
      by_cases hu : 0 < pg.used
      · have hdel : ps.delete_page = (false, ps) := by
          unfold PageStore.delete_page; rw [hps]; simp [hu]
        have hres : PageStore.resetFuel (n + 1) ps = ps := by
          simp [PageStore.resetFuel, hempty, hdel]
        exact ⟨0, by rw [hres, List.drop_zero]; exact hps, by simp, by simp [hres, pageNames],
          Or.inr ⟨pg, rest, by rw [hres, hps], hu⟩⟩
      · set ps2 : PageStore :=
          { ps with pages := rest,
                    totalSize := ps.totalSize - pg.size,
                    current := if ps.current = some pg.name then none else ps.current,
                    deleted := ps.deleted ++ [pg.name] } with hps2
        have hdel : ps.delete_page = (true, ps2) := by
          unfold PageStore.delete_page; rw [hps]; simp [hu, hps2]
        have hres : PageStore.resetFuel (n + 1) ps = PageStore.resetFuel n ps2 := by
          simp [PageStore.resetFuel, hempty, hdel]
        have hlen2 : ps2.pages.length ≤ n := by
          have : ps.pages.length = rest.length + 1 := by rw [hps]; simp
          simp only [hps2]
          omega
        obtain ⟨k2, hpg2, hus2, hdl2, hstop2⟩ := ih ps2 hlen2
        refine ⟨k2 + 1, ?_, ?_, ?_, ?_⟩
        · rw [hres]
          simpa [hps2] using hpg2
        · intro q hq
          simp only [List.take_succ_cons, List.mem_cons] at hq
          rcases hq with rfl | hq
          · omega
          · exact hus2 q hq
        · rw [hres, hdl2]
          simp [pageNames, hps2]
        · rw [hres]
          exact hstop2

/-- C8 amended: reset/teardown ignores the retention budget and deletes
pages from the oldest end while they are drained, dispatching each file
deletion; it stops at the first page that still has users, so only the
longest drained prefix is removed — drained pages behind an in-use page
survive and remain (to be logged as leaked), and the destructor runs the
same loop (no abort on outstanding users). -/
theorem pool_reset_spec (ps : PageStore) :
    (∀ b, PageStore.reset { ps with keepSize := b } =
      { ps.reset with keepSize := b }) ∧
    ps.destructor = ps.reset ∧
    ∃ k, (ps.reset).pages = ps.pages.drop k ∧
      (∀ pg ∈ ps.pages.take k, pg.used = 0) ∧
      (ps.reset).deleted = ps.deleted ++ pageNames (ps.pages.take k) ∧
      ((ps.reset).pages = [] ∨
        ∃ h t, (ps.reset).pages = h :: t ∧ 0 < h.used) :=
  ⟨fun b => resetFuel_keepSize ps.pages.length ps b, rfl,
    resetFuel_spec ps.pages.length ps (Nat.le_refl _)⟩

/-! ## C4 — total-size accounting invariant

Supporting facts: every page-modifying closure the pool applies through
`setPage` preserves the page's mapped size and its name, so `total_size_`
bookkeeping reduces to the `+ size` in `new_page` and the `- size` in
`delete_page`. -/

theorem sumSizes_nil : sumSizes [] = 0 := rfl

theorem sumSizes_cons (p : Page) (l : List Page) :
    sumSizes (p :: l) = p.size + sumSizes l := by
  simp [sumSizes]

theorem sumSizes_append (a b : List Page) :
    sumSizes (a ++ b) = sumSizes a + sumSizes b := by
  simp [sumSizes]

theorem close_mmapSize (q : Page) : q.close.mmapSize = q.mmapSize := by
  unfold Page.close; split <;> rfl

theorem close_name (q : Page) : q.close.name = q.name := by
  unfold Page.close; split <;> rfl

theorem close_used (q : Page) : q.close.used = q.used := by
  unfold Page.close; split <;> rfl

theorem malloc_snd_mmapSize (q : Page) (s : Nat) :
    ((q.malloc s).2).mmapSize = q.mmapSize := by
  unfold Page.malloc
  by_cases h : aligned_size s ≤ q.space
  · simp [h]
  · simp [h, close_mmapSize]

theorem malloc_snd_name (q : Page) (s : Nat) :
    ((q.malloc s).2).name = q.name := by
  unfold Page.malloc
  by_cases h : aligned_size s ≤ q.space
  · simp [h]
  · simp [h, close_name]

theorem malloc_snd_used (q : Page) (s : Nat) :
    q.used ≤ ((q.malloc s).2).used := by
  unfold Page.malloc
  by_cases h : aligned_size s ≤ q.space
  · simp [h]
  · simp [h, close_used]

theorem pageAddKeyBlock_mmapSize (kb : Nat) (q : Page) :
    (PageStore.pageAddKeyBlock kb q).mmapSize = q.mmapSize := by
  unfold PageStore.pageAddKeyBlock
  cases h : (q.malloc kb).1 <;>
    simp [h, Page.discard, malloc_snd_mmapSize]

theorem pageAddKeyBlock_name (kb : Nat) (q : Page) :
    (PageStore.pageAddKeyBlock kb q).name = q.name := by
  unfold PageStore.pageAddKeyBlock
  cases h : (q.malloc kb).1 <;>
    simp [h, Page.discard, malloc_snd_name]

theorem sumSizes_replacePage (l : List Page) (n : Nat) (f : Page → Page)
    (hf : ∀ p, (f p).mmapSize = p.mmapSize) :
    sumSizes (PageStore.replacePage l n f) = sumSizes l := by
  induction l with
  | nil => rfl
  | cons p r ih =>
    unfold PageStore.replacePage
    by_cases h : p.name == n
    · simp only [h, if_true, sumSizes_cons]
      have : (f p).size = p.size := hf p
      omega
    · simp only [h, if_false, Bool.false_eq_true, sumSizes_cons, ih]

theorem pageNames_replacePage (l : List Page) (n : Nat) (f : Page → Page)
    (hf : ∀ p, (f p).name = p.name) :
    pageNames (PageStore.replacePage l n f) = pageNames l := by
  induction l with
  | nil => rfl
  | cons p r ih =>
    unfold PageStore.replacePage
    by_cases h : p.name == n
    · simp only [h, if_true, pageNames, List.map_cons, hf]
    · simp only [h, if_false, Bool.false_eq_true, pageNames, List.map_cons]
      unfold pageNames at ih
      rw [ih]

theorem namesOK_iff (ps : PageStore) :
    NamesOK ps ↔ ∀ m ∈ pageNames ps.pages, m < ps.count := by
  unfold NamesOK pageNames
  constructor
  · intro h m hm
    obtain ⟨p, hp, rfl⟩ := List.mem_map.mp hm
    exact h p hp
  · intro h p hp
    exact h p.name (List.mem_map.mpr ⟨p, hp, rfl⟩)

/-- The pool invariant used for C4: page names are below the counter and
the running total equals the sum of mapped sizes. -/
theorem inv_delete_page (ps : PageStore)
    (hN : NamesOK ps) (hT : ps.totalSize = sumSizes ps.pages) :
    NamesOK (ps.delete_page).2 ∧
      (ps.delete_page).2.totalSize = sumSizes (ps.delete_page).2.pages := by
  cases hp : ps.pages with
  | nil =>
    have : ps.delete_page = (false, ps) := by unfold PageStore.delete_page; rw [hp]
    rw [this]
    exact ⟨hN, hT⟩
  | cons pg rest =>
    by_cases hu : 0 < pg.used
    · have : ps.delete_page = (false, ps) := by
        unfold PageStore.delete_page; rw [hp]; simp [hu]
      rw [this]
      exact ⟨hN, hT⟩
    · have hdel : ps.delete_page = (true,
        { ps with pages := rest,
                  totalSize := ps.totalSize - pg.size,
                  current := if ps.current = some pg.name then none else ps.current,
                  deleted := ps.deleted ++ [pg.name] }) := by
        unfold PageStore.delete_page; rw [hp]; simp [hu]
      rw [hdel]
      constructor
      · intro q hq
        exact hN q (by rw [hp]; exact List.mem_cons_of_mem pg hq)
      · rw [hp, sumSizes_cons] at hT
        simp only
        omega

theorem inv_cleanupFuel (n : Nat) (ps : PageStore)
    (hN : NamesOK ps) (hT : ps.totalSize = sumSizes ps.pages) :
    NamesOK (PageStore.cleanupFuel n ps) ∧
      (PageStore.cleanupFuel n ps).totalSize =
        sumSizes (PageStore.cleanupFuel n ps).pages := by
  induction n generalizing ps with
  | zero => exact ⟨hN, hT⟩
  | succ n ih =>
    unfold PageStore.cleanupFuel
    by_cases hneed : PageStore.cleanupNeeded ps
    · simp only [hneed, if_true]
      obtain ⟨hN2, hT2⟩ := inv_delete_page ps hN hT
      by_cases hdel : (ps.delete_page).1
      · simp only [hdel, if_true]
        exact ih (ps.delete_page).2 hN2 hT2
      · simp only [hdel, if_false, Bool.false_eq_true]
        exact ⟨hN2, hT2⟩
    · simp only [hneed, if_false, Bool.false_eq_true]
      exact ⟨hN, hT⟩

theorem inv_resetFuel (n : Nat) (ps : PageStore)
    (hN : NamesOK ps) (hT : ps.totalSize = sumSizes ps.pages) :
    NamesOK (PageStore.resetFuel n ps) ∧
      (PageStore.resetFuel n ps).totalSize =
        sumSizes (PageStore.resetFuel n ps).pages := by
  induction n generalizing ps with
  | zero => exact ⟨hN, hT⟩
  | succ n ih =>
    unfold PageStore.resetFuel
    by_cases hempty : ps.pages.isEmpty
    · simp only [hempty, if_true]
      exact ⟨hN, hT⟩
    · simp only [hempty, if_false, Bool.false_eq_true]
      obtain ⟨hN2, hT2⟩ := inv_delete_page ps hN hT
      by_cases hdel : (ps.delete_page).1
      · simp only [hdel, if_true]
        exact ih (ps.delete_page).2 hN2 hT2
      · simp only [hdel, if_false, Bool.false_eq_true]
        exact ⟨hN2, hT2⟩

theorem inv_new_page (ps : PageStore) (sz : Nat)
    (hN : NamesOK ps) (hT : ps.totalSize = sumSizes ps.pages) :
    NamesOK (ps.new_page sz) ∧
      (ps.new_page sz).totalSize = sumSizes (ps.new_page sz).pages := by
  unfold PageStore.new_page PageStore.setPage
  constructor
  · rw [namesOK_iff]
    simp only
    rw [pageNames_replacePage _ _ _ (pageAddKeyBlock_name _)]
    intro m hm
    unfold pageNames at hm
    simp only [List.map_append, List.map_cons, List.map_nil, List.mem_append,
      List.mem_singleton] at hm
    rcases hm with hm | hm
    · obtain ⟨p, hp, rfl⟩ := List.mem_map.mp hm
      have := hN p hp
      omega
    · simp only [Page.construct] at hm
      omega
  · simp only
    rw [sumSizes_replacePage _ _ _ (pageAddKeyBlock_mmapSize _), sumSizes_append,
      sumSizes_cons, sumSizes_nil, hT]
    omega

theorem inv_malloc_new (ps : PageStore) (size : Nat) (ok : Bool)
    (hN : NamesOK ps) (hT : ps.totalSize = sumSizes ps.pages) :
    NamesOK (ps.malloc_new size ok).2 ∧
      (ps.malloc_new size ok).2.totalSize =
        sumSizes (ps.malloc_new size ok).2.pages := by
  unfold PageStore.malloc_new
  by_cases hok : ok
  · simp only [hok, if_true]
    set S : Nat := if ps.pageSize > size + meta_size ps.encKeySize then ps.pageSize
      else size + meta_size ps.encKeySize with hS
    obtain ⟨hN1, hT1⟩ := inv_new_page ps S hN hT
    cases hcur : (ps.new_page S).curPage with
    | none =>
      simp only [hcur]
      exact inv_cleanupFuel _ _ hN1 hT1
    | some pg =>
      simp only [hcur]
      have hN2 : NamesOK ((ps.new_page S).setPage pg.name (fun q => (q.malloc size).2)) := by
        rw [namesOK_iff]
        unfold PageStore.setPage
        simp only
        rw [pageNames_replacePage (ps.new_page S).pages pg.name
          (fun q => (q.malloc size).2) (fun q => malloc_snd_name q size)]
        rw [namesOK_iff] at hN1
        exact hN1
      have hT2 : ((ps.new_page S).setPage pg.name (fun q => (q.malloc size).2)).totalSize =
          sumSizes ((ps.new_page S).setPage pg.name (fun q => (q.malloc size).2)).pages := by
        unfold PageStore.setPage
        simp only
        rw [sumSizes_replacePage (ps.new_page S).pages pg.name
          (fun q => (q.malloc size).2) (fun q => malloc_snd_mmapSize q size)]
        exact hT1
      exact inv_cleanupFuel _ _ hN2 hT2
  · simp only [hok, if_false, Bool.false_eq_true]
    exact ⟨hN, hT⟩

theorem inv_malloc (ps : PageStore) (size : Nat) (ok : Bool)
    (hN : NamesOK ps) (hT : ps.totalSize = sumSizes ps.pages) :
    NamesOK (ps.malloc size ok).2 ∧
      (ps.malloc size ok).2.totalSize = sumSizes (ps.malloc size ok).2.pages := by
  unfold PageStore.malloc
  cases hcur : ps.curPage with
  | none =>
    simp only [hcur]
    exact inv_malloc_new ps size ok hN hT
  | some pg =>
    simp only [hcur]
    have hN1 : NamesOK (ps.setPage pg.name (fun q => (q.malloc size).2)) := by
      rw [namesOK_iff]
      unfold PageStore.setPage
      simp only
      rw [pageNames_replacePage ps.pages pg.name
        (fun q => (q.malloc size).2) (fun q => malloc_snd_name q size)]
      rw [namesOK_iff] at hN
      exact hN
    have hT1 : (ps.setPage pg.name (fun q => (q.malloc size).2)).totalSize =
        sumSizes (ps.setPage pg.name (fun q => (q.malloc size).2)).pages := by
      unfold PageStore.setPage
      simp only
      rw [sumSizes_replacePage ps.pages pg.name
        (fun q => (q.malloc size).2) (fun q => malloc_snd_mmapSize q size)]
      exact hT
    cases hr : (pg.malloc size).1 with
    | some off =>
      simp only [hr]
      exact ⟨hN1, hT1⟩
    | none =>
      simp only [hr]
      exact inv_malloc_new _ size ok hN1 hT1

theorem inv_set_enc_key (ps : PageStore) (k : Nat)
    (hN : NamesOK ps) (hT : ps.totalSize = sumSizes ps.pages) :
    NamesOK (ps.set_enc_key k) ∧
      (ps.set_enc_key k).totalSize = sumSizes (ps.set_enc_key k).pages := by
  unfold PageStore.set_enc_key
  obtain ⟨hN1, hT1⟩ := inv_new_page ps
    (if meta_size ps.encKeySize > ps.pageSize then meta_size ps.encKeySize
      else ps.pageSize) hN hT
  exact ⟨hN1, hT1⟩

theorem inv_setPage_mem (ps : PageStore) (n : Nat) (g : Page → List Nat)
    (hN : NamesOK ps) (hT : ps.totalSize = sumSizes ps.pages) :
    NamesOK (ps.setPage n (fun q => { q with mem := g q })) ∧
      (ps.setPage n (fun q => { q with mem := g q })).totalSize =
        sumSizes (ps.setPage n (fun q => { q with mem := g q })).pages := by
  unfold PageStore.setPage
  constructor
  · rw [namesOK_iff]
    simp only
    rw [pageNames_replacePage ps.pages n (fun q => { q with mem := g q }) (fun q => rfl)]
    rw [namesOK_iff] at hN
    exact hN
  · simp only
    rw [sumSizes_replacePage ps.pages n (fun q => { q with mem := g q }) (fun q => rfl)]
    exact hT

theorem inv_setPage_hdr_used (ps : PageStore) (n : Nat)
    (g : Page → List (Nat × BufferHeader))
    (hN : NamesOK ps) (hT : ps.totalSize = sumSizes ps.pages) :
    NamesOK (ps.setPage n (fun q => { q with hdrs := g q, used := q.used - 1 })) ∧
      (ps.setPage n (fun q => { q with hdrs := g q, used := q.used - 1 })).totalSize =
        sumSizes (ps.setPage n (fun q => { q with hdrs := g q, used := q.used - 1 })).pages := by
  unfold PageStore.setPage
  constructor
  · rw [namesOK_iff]
    simp only
    rw [pageNames_replacePage ps.pages n
      (fun q => { q with hdrs := g q, used := q.used - 1 }) (fun q => rfl)]
    rw [namesOK_iff] at hN
    exact hN
  · simp only
    rw [sumSizes_replacePage ps.pages n
      (fun q => { q with hdrs := g q, used := q.used - 1 }) (fun q => rfl)]
    exact hT

theorem inv_realloc (ps : PageStore) (pg uoff size : Nat) (ok : Bool)
    (hN : NamesOK ps) (hT : ps.totalSize = sumSizes ps.pages) :
    NamesOK (ps.realloc pg uoff size ok).2 ∧
      (ps.realloc pg uoff size ok).2.totalSize =
        sumSizes (ps.realloc pg uoff size ok).2.pages := by
  unfold PageStore.realloc
  cases hfp : ps.findPage pg with
  | none => exact ⟨hN, hT⟩
  | some p =>
    simp only [hfp]
    cases hbh : hdrGet p.hdrs (uoff - bhSize) with
    | none => exact ⟨hN, hT⟩
    | some bh =>
      simp only [hbh, Page.reallocInPlace]
      obtain ⟨hN1, hT1⟩ := inv_malloc_new ps size ok hN hT
      cases hr : (ps.malloc_new size ok).1 with
      | none =>
        simp only [hr]
        exact ⟨hN1, hT1⟩
      | some ret =>
        simp only [hr]
        obtain ⟨hN2, hT2⟩ := inv_setPage_mem (ps.malloc_new size ok).2 ret.1
          (fun np => writeBytes np.mem ret.2 ((p.mem.drop uoff).take
            (if size > bh.size - bhSize then bh.size - bhSize else size))) hN1 hT1
        exact inv_setPage_hdr_used _ pg
          (fun op => hdrSet op.hdrs (uoff - bhSize) { bh with released := true }) hN2 hT2

theorem inv_release (ps : PageStore) (n : Nat)
    (hN : NamesOK ps) (hT : ps.totalSize = sumSizes ps.pages) :
    NamesOK (ps.release n) ∧
      (ps.release n).totalSize = sumSizes (ps.release n).pages := by
  unfold PageStore.release PageStore.setPage
  constructor
  · rw [namesOK_iff]
    simp only
    rw [pageNames_replacePage ps.pages n Page.discard (fun q => rfl)]
    rw [namesOK_iff] at hN
    exact hN
  · simp only
    rw [sumSizes_replacePage ps.pages n Page.discard (fun q => rfl)]
    exact hT

/-- Invariant preservation over one operation. -/
theorem inv_applyOp (ps : PageStore) (op : Op)
    (hN : NamesOK ps) (hT : ps.totalSize = sumSizes ps.pages) :
    NamesOK (applyOp ps op) ∧
      (applyOp ps op).totalSize = sumSizes (applyOp ps op).pages := by
  cases op with
  | alloc size ok => exact inv_malloc ps size ok hN hT
  | reallocOp pg uoff size ok => exact inv_realloc ps pg uoff size ok hN hT
  | setKey k => exact inv_set_enc_key ps k hN hT
  | cleanupOp => exact inv_cleanupFuel _ ps hN hT
  | resetOp => exact inv_resetFuel _ ps hN hT
  | releaseOp n => exact inv_release ps n hN hT

/-- Every reachable pool state has well-formed names and exact total-size
accounting. -/
theorem reachable_inv (ps : PageStore) (h : Reachable ps) :
    NamesOK ps ∧ ps.totalSize = sumSizes ps.pages := by
  induction h with
  | init keepSize pageSize =>
    constructor
    · intro q hq
      simp [PageStore.init] at hq
    · rfl
  | step op hps ih => exact inv_applyOp _ op ih.1 ih.2

/-- C4: after any sequence of pool operations (allocations, reallocations,
key changes, cleanups, resets, releases), the running `total_size` counter
equals the sum of the mapped sizes of exactly the pages currently in the
queue; page creation adds the new page's mapped size and page deletion
subtracts the removed page's mapped size, and no other operation moves the
counter away from that sum. -/
theorem total_size_invariant (ps : PageStore) (h : Reachable ps) :
    ps.totalSize = sumSizes ps.pages :=
  (reachable_inv ps h).2

/-- Witness for C4 at the concrete reachable state `scenC` (three
operations deep: two allocations and a release). -/
theorem total_size_invariant_witness :
    scenC.totalSize = sumSizes scenC.pages :=
  total_size_invariant scenC
    (Reachable.step (Op.releaseOp 1)
      (Reachable.step (Op.alloc 16 true)
        (Reachable.step (Op.alloc 8 true) (Reachable.init 0 64))))

/-! ## C3 — PageStore::malloc routing and error handling -/

theorem aligned_le {s t : Nat} (h : s ≤ t) : aligned_size s ≤ aligned_size t := by
  unfold aligned_size; omega

theorem aligned_ge (s : Nat) : s ≤ aligned_size s := by
  unfold aligned_size; omega

theorem aligned_add_mul8 (s k : Nat) :
    aligned_size (s + 8 * k) = aligned_size s + 8 * k := by
  unfold aligned_size; omega

theorem aligned_exists8 (s : Nat) : ∃ k, aligned_size s = 8 * k := ⟨(s + 7) / 8, rfl⟩

theorem BH_aligned_idem (s : Nat) :
    aligned_size (BH_aligned_size s) = BH_aligned_size s := by
  obtain ⟨k, hk⟩ := aligned_exists8 (s + bhSize)
  unfold BH_aligned_size
  rw [hk]
  unfold aligned_size
  omega

theorem if_gt_eq_max (a b : Nat) : (if a > b then a else b) = max a b := by
  by_cases h : a > b
  · simp only [h, if_true]
    omega
  · simp only [h, if_false]
    omega

/-- Fields of a freshly constructed page whose mapping holds at least the
nonce. -/
theorem construct_fields (n : Nat) (nn : List Nat) (ks sz : Nat)
    (h : nonceWidth ≤ aligned_size sz) :
    (Page.construct n nn ks sz).space = aligned_size sz - aligned_size nonceWidth ∧
    (Page.construct n nn ks sz).next = aligned_size nonceWidth ∧
    (Page.construct n nn ks sz).used = 0 ∧
    (Page.construct n nn ks sz).name = n ∧
    (Page.construct n nn ks sz).mmapSize = aligned_size sz := by
  unfold Page.construct nonceWrite nonce_serial_size
  have hmin : min nonceWidth (List.replicate (aligned_size sz) (0 : Nat)).length
      = nonceWidth := by
    simp only [List.length_replicate]
    omega
  have hmin2 : min nonceWidth (aligned_size sz) = nonceWidth := by omega
  simp [hmin, hmin2]

/-- Effect of the key-metadata block on a page with room for it. -/
theorem pageAddKeyBlock_eq (kb : Nat) (q : Page) (hkb : aligned_size kb = kb)
    (hsp : kb ≤ q.space) :
    PageStore.pageAddKeyBlock kb q =
      { q with space := q.space - kb, next := q.next + kb,
               hdrs := hdrSet q.hdrs q.next ⟨kb, 0, true⟩ } := by
  unfold PageStore.pageAddKeyBlock Page.malloc
  rw [hkb]
  simp [hsp, Page.discard]

theorem replacePage_append (l l2 : List Page) (n : Nat) (f : Page → Page)
    (h : ∀ p ∈ l, (p.name == n) = false) :
    PageStore.replacePage (l ++ l2) n f = l ++ PageStore.replacePage l2 n f := by
  induction l with
  | nil => rfl
  | cons p r ih =>
    have hp := h p (List.mem_cons_self p r)
    simp only [List.cons_append]
    show PageStore.replacePage (p :: (r ++ l2)) n f =
      p :: (r ++ PageStore.replacePage l2 n f)
    simp only [PageStore.replacePage, hp, Bool.false_eq_true, if_false,
      List.cons_inj_right]
    exact ih (fun q hq => h q (List.mem_cons_of_mem p hq))

theorem find_name_append (l l2 : List Page) (n : Nat)
    (h : ∀ p ∈ l, (p.name == n) = false) :
    (l ++ l2).find? (fun p => p.name == n) = l2.find? (fun p => p.name == n) := by
  induction l with
  | nil => rfl
  | cons p r ih =>
    have hp := h p (List.mem_cons_self p r)
    simp only [List.cons_append, List.find?_cons, hp]
    exact ih (fun q hq => h q (List.mem_cons_of_mem p hq))

/-- Characterization of `new_page` on a pool with well-formed names: the
fresh page (with its key block) is appended, accounted, and made
current. -/
theorem new_page_eq (ps : PageStore) (sz : Nat) (hN : NamesOK ps) :
    ps.new_page sz = { ps with
      pages := ps.pages ++ [PageStore.pageAddKeyBlock (BH_aligned_size ps.encKeySize)
        (Page.construct ps.count PageStore.defaultNonce ps.encKeySize sz)],
      totalSize := ps.totalSize + aligned_size sz,
      current := some ps.count,
      count := ps.count + 1 } := by
  have hname : (Page.construct ps.count PageStore.defaultNonce ps.encKeySize sz).name
      = ps.count := rfl
  have hsz : (Page.construct ps.count PageStore.defaultNonce ps.encKeySize sz).size
      = aligned_size sz := rfl
  have hold : ∀ p ∈ ps.pages, (p.name == ps.count) = false := by
    intro p hp
    have := hN p hp
    simp only [beq_eq_false_iff_ne, ne_eq]
    omega
  unfold PageStore.new_page PageStore.setPage
  simp only [hname, hsz]
  rw [replacePage_append ps.pages _ _ _ hold]
  simp only [PageStore.replacePage, hname, beq_self_eq_true, if_true]

/-- The current page right after `new_page` is the fresh page with its key
block. -/
theorem curPage_new_page (ps : PageStore) (sz : Nat) (hN : NamesOK ps) :
    (ps.new_page sz).curPage =
      some (PageStore.pageAddKeyBlock (BH_aligned_size ps.encKeySize)
        (Page.construct ps.count PageStore.defaultNonce ps.encKeySize sz)) := by
  have hold : ∀ p ∈ ps.pages, (p.name == ps.count) = false := by
    intro p hp
    have := hN p hp
    simp only [beq_eq_false_iff_ne, ne_eq]
    omega
  rw [new_page_eq ps sz hN]
  unfold PageStore.curPage PageStore.findPage
  simp only [Option.bind_some, Option.some_bind]
  rw [find_name_append ps.pages _ _ hold]
  have hname : (PageStore.pageAddKeyBlock (BH_aligned_size ps.encKeySize)
      (Page.construct ps.count PageStore.defaultNonce ps.encKeySize sz)).name
        = ps.count := by
    rw [pageAddKeyBlock_name]
    rfl
  simp [List.find?_cons, hname]

/-- A page with users survives cleanup. -/
theorem mem_cleanup (ps : PageStore) (pg : Page) (hpg : pg ∈ ps.pages)
    (hu : 0 < pg.used) : pg ∈ (ps.cleanup).pages := by
  obtain ⟨k, hdrop, htake, -, -, -⟩ :=
    cleanupFuel_spec ps.pages.length ps (Nat.le_refl _)
  rw [show ps.cleanup = PageStore.cleanupFuel ps.pages.length ps from rfl, hdrop]
  have hsplit : pg ∈ ps.pages.take k ∨ pg ∈ ps.pages.drop k := by
    rw [← List.mem_append, List.take_append_drop]
    exact hpg
  rcases hsplit with h | h
  · have := htake pg h
    omega
  · exact h

theorem namesOK_setPage (ps : PageStore) (n : Nat) (f : Page → Page)
    (hf : ∀ p, (f p).name = p.name) (hN : NamesOK ps) :
    NamesOK (ps.setPage n f) := by
  rw [namesOK_iff]
  unfold PageStore.setPage
  simp only
  rw [pageNames_replacePage ps.pages n f hf]
  rw [namesOK_iff] at hN
  exact hN

/-- Successful rollover: with well-formed names, `malloc_new` with a
working page-creation path returns a pointer on the fresh page — located
right after the nonce block and the key block — and the fresh page,
sized `max(page_size, size + metadata overhead)` and in use, is appended
behind the surviving old pages in the final (cleaned-up) state. -/
theorem malloc_new_strong (ps : PageStore) (size : Nat) (hN : NamesOK ps) :
    (ps.malloc_new size true).1 =
      some (ps.count, aligned_size nonceWidth + BH_aligned_size ps.encKeySize) ∧
    ∃ np ∈ (ps.malloc_new size true).2.pages, np.name = ps.count ∧
      np.mmapSize = aligned_size (max ps.pageSize (size + meta_size ps.encKeySize)) ∧
      0 < np.used ∧
      np.mem.length = aligned_size (max ps.pageSize (size + meta_size ps.encKeySize)) ∧
      np.next = aligned_size nonceWidth + BH_aligned_size ps.encKeySize +
        aligned_size size ∧
      np.next ≤ np.mem.length ∧
      ∃ k2, (ps.malloc_new size true).2.pages = ps.pages.drop k2 ++ [np] ∧
        ∀ q ∈ ps.pages.take k2, q.used = 0 := by
  set kb : Nat := BH_aligned_size ps.encKeySize with hkb
  set S : Nat := if ps.pageSize > size + meta_size ps.encKeySize then ps.pageSize
    else size + meta_size ps.encKeySize with hS
  have hSmax : S = max ps.pageSize (size + meta_size ps.encKeySize) :=
    if_gt_eq_max _ _
  have hSge : size + meta_size ps.encKeySize ≤ S := by rw [hSmax]; omega
  obtain ⟨k8, hk8⟩ := aligned_exists8 (ps.encKeySize + bhSize)
  have hkb8 : kb = 8 * k8 := by rw [hkb]; exact hk8
  have hmeta : meta_size ps.encKeySize = 16 + kb := by
    unfold meta_size
    rw [hkb]
    rfl
  have hmono : aligned_size (size + meta_size ps.encKeySize) ≤ aligned_size S :=
    aligned_le hSge
  have hsplit : aligned_size (size + meta_size ps.encKeySize) =
      aligned_size size + 16 + kb := by
    rw [hmeta, hkb8]
    have : size + (16 + 8 * k8) = size + 8 * (2 + k8) := by ring
    rw [this, aligned_add_mul8]
    ring
  have hroom : aligned_size size + 16 + kb ≤ aligned_size S := by
    rw [← hsplit]; exact hmono
  have h16 : nonceWidth ≤ aligned_size S := by
    unfold nonceWidth
    omega
  obtain ⟨hc_space, hc_next, hc_used, hc_name, hc_mmap⟩ :=
    construct_fields ps.count PageStore.defaultNonce ps.encKeySize S h16
  have hkb_aligned : aligned_size kb = kb := by rw [hkb]; exact BH_aligned_idem _
  have hkb_le : kb ≤ (Page.construct ps.count PageStore.defaultNonce ps.encKeySize S).space := by
    rw [hc_space]
    have h1616 : aligned_size nonceWidth = 16 := by decide
    omega
  have hpg2 := pageAddKeyBlock_eq kb
    (Page.construct ps.count PageStore.defaultNonce ps.encKeySize S) hkb_aligned hkb_le
  set pg2 : Page := PageStore.pageAddKeyBlock kb
    (Page.construct ps.count PageStore.defaultNonce ps.encKeySize S) with hpg2d
  have h1616 : aligned_size nonceWidth = 16 := by decide
  have hpg2_space : pg2.space = aligned_size S - 16 - kb := by
    simp only [hpg2]
    rw [hc_space, h1616]
  have hpg2_next : pg2.next = 16 + kb := by
    simp only [hpg2]
    rw [hc_next, h1616]
  have hpg2_used : pg2.used = 0 := by
    simp only [hpg2]
    exact hc_used
  have hpg2_name : pg2.name = ps.count := by
    simp only [hpg2]
    exact hc_name
  have hpg2_mmap : pg2.mmapSize = aligned_size S := by
    simp only [hpg2]
    exact hc_mmap
  have hfit : aligned_size size ≤ pg2.space := by
    rw [hpg2_space]
    omega
  have hmal : pg2.malloc size = (some pg2.next,
      { pg2 with space := pg2.space - aligned_size size,
                 next := pg2.next + aligned_size size, used := pg2.used + 1 }) := by
    unfold Page.malloc
    simp [hfit]
  unfold PageStore.malloc_new
  simp only [if_true]
  have hcur := curPage_new_page ps S hN
  rw [← hkb, ← hpg2d] at hcur
  rw [hcur]
  simp only [hmal, Option.map_some]
  have hcm : (Page.construct ps.count PageStore.defaultNonce ps.encKeySize S).mem.length
      = aligned_size S := by
    unfold Page.construct
    simp only
    rw [nonceWrite_length _ _ (by rfl)]
    simp [List.length_replicate]
  have hpg2_mem : pg2.mem.length = aligned_size S := by
    simp only [hpg2]
    exact hcm
  constructor
  · rw [hpg2_name, hpg2_next, h1616, hkb]
    rfl
  · have hold : ∀ p ∈ ps.pages, (p.name == pg2.name) = false := by
      intro p hp
      have := hN p hp
      rw [hpg2_name]
      simp only [beq_eq_false_iff_ne, ne_eq]
      omega
    have hB : ((ps.new_page S).setPage pg2.name (fun q => (q.malloc size).2)).pages
        = ps.pages ++ [(pg2.malloc size).2] := by
      unfold PageStore.setPage
      rw [new_page_eq ps S hN]
      simp only
      rw [replacePage_append ps.pages _ _ _ hold]
      simp only [PageStore.replacePage, beq_self_eq_true, if_true]
    set X : PageStore := (ps.new_page S).setPage pg2.name (fun q => (q.malloc size).2)
      with hX
    obtain ⟨k, hdrop, htake, -, -, -⟩ :=
      cleanupFuel_spec X.pages.length X (Nat.le_refl _)
    have hcleq : (X.cleanup).pages = X.pages.drop k := by
      rw [show X.cleanup = PageStore.cleanupFuel X.pages.length X from rfl, hdrop]
    have hku : k ≤ ps.pages.length := by
      by_contra hgt
      push_neg at hgt
      have hlen : X.pages.length = ps.pages.length + 1 := by rw [hB]; simp
      have htka : X.pages.take k = X.pages := List.take_of_length_le (by omega)
      have hmem2 : (pg2.malloc size).2 ∈ X.pages.take k := by
        rw [htka, hB]
        exact List.mem_append_right _ (List.mem_singleton.mpr rfl)
      have hz := htake _ hmem2
      rw [hmal] at hz
      simp only at hz
      omega
    have hdecomp : (X.cleanup).pages = ps.pages.drop k ++ [(pg2.malloc size).2] := by
      rw [hcleq, hB, List.drop_append_of_le_length hku]
    refine ⟨(pg2.malloc size).2, ?_, ?_, ?_, ?_, ?_, ?_, ?_, k, hdecomp, ?_⟩
    · rw [hdecomp]
      exact List.mem_append_right _ (List.mem_singleton.mpr rfl)
    · rw [hmal]
      simp only
      rw [hpg2_name]
    · rw [hmal]
      simp only
      rw [hpg2_mmap, hSmax]
    · rw [hmal]
      simp only
      omega
    · rw [hmal]
      simp only
      rw [hpg2_mem, hSmax]
    · rw [hmal]
      simp only
      rw [hpg2_next, h1616, hkb]
    · rw [hmal]
      simp only
      rw [hpg2_next, hpg2_mem]
      omega
    · intro q hq
      apply htake
      rw [hB, List.take_append_of_le_length hku]
      exact hq

/-- Successful rollover, summary form used by the allocation-routing
theorem. -/
theorem malloc_new_success (ps : PageStore) (size : Nat) (hN : NamesOK ps) :
    (ps.malloc_new size true).1 =
      some (ps.count, aligned_size nonceWidth + BH_aligned_size ps.encKeySize) ∧
    ∃ np ∈ (ps.malloc_new size true).2.pages, np.name = ps.count ∧
      np.mmapSize = aligned_size (max ps.pageSize (size + meta_size ps.encKeySize)) ∧
      0 < np.used := by
  obtain ⟨h1, np, hmem, hname, hmmap, hused, -⟩ := malloc_new_strong ps size hN
  exact ⟨h1, np, hmem, hname, hmmap, hused⟩

/-- Fields `delete_page` never touches. -/
theorem delete_page_fields (ps : PageStore) :
    (ps.delete_page).2.dropped = ps.dropped ∧
    (ps.delete_page).2.count = ps.count ∧
    (ps.delete_page).2.encKeySize = ps.encKeySize ∧
    (ps.delete_page).2.pageSize = ps.pageSize ∧
    (ps.delete_page).2.keepSize = ps.keepSize := by
  cases hp : ps.pages with
  | nil =>
    unfold PageStore.delete_page
    rw [hp]
    exact ⟨rfl, rfl, rfl, rfl, rfl⟩
  | cons pg rest =>
    unfold PageStore.delete_page
    rw [hp]
    by_cases hu : 0 < pg.used <;> simp [hu]

theorem cleanupFuel_fields (n : Nat) (ps : PageStore) :
    (PageStore.cleanupFuel n ps).dropped = ps.dropped ∧
    (PageStore.cleanupFuel n ps).count = ps.count ∧
    (PageStore.cleanupFuel n ps).encKeySize = ps.encKeySize := by
  induction n generalizing ps with
  | zero => exact ⟨rfl, rfl, rfl⟩
  | succ n ih =>
    unfold PageStore.cleanupFuel
    by_cases hneed : PageStore.cleanupNeeded ps
    · simp only [hneed, if_true]
      obtain ⟨hd, hc, he, -, -⟩ := delete_page_fields ps
      by_cases hdel : (ps.delete_page).1
      · simp only [hdel, if_true]
        obtain ⟨ihd, ihc, ihe⟩ := ih (ps.delete_page).2
        exact ⟨ihd.trans hd, ihc.trans hc, ihe.trans he⟩
      · simp only [hdel, if_false, Bool.false_eq_true]
        exact ⟨hd, hc, he⟩
    · simp only [hneed, if_false, Bool.false_eq_true]
      exact ⟨by trivial, by trivial, by trivial⟩

theorem new_page_dropped (ps : PageStore) (sz : Nat) :
    (ps.new_page sz).dropped = ps.dropped := by
  unfold PageStore.new_page PageStore.setPage
  rfl

theorem cleanup_dropped (ps : PageStore) : (ps.cleanup).dropped = ps.dropped :=
  (cleanupFuel_fields ps.pages.length ps).1

theorem malloc_new_dropped (ps : PageStore) (size : Nat) (ok : Bool) :
    (ps.malloc_new size ok).2.dropped = ps.dropped := by
  unfold PageStore.malloc_new
  by_cases hok : ok
  · simp only [hok, if_true]
    set S : Nat := if ps.pageSize > size + meta_size ps.encKeySize then ps.pageSize
      else size + meta_size ps.encKeySize with hS
    cases hcur : (ps.new_page S).curPage with
    | none =>
      simp only [hcur]
      exact (cleanup_dropped _).trans (new_page_dropped ps S)
    | some pg =>
      simp only [hcur]
      exact (cleanup_dropped _).trans (new_page_dropped ps S)
  · simp only [hok, if_false, Bool.false_eq_true]

/-- C3: PageStore::malloc first tries the current page and returns its
pointer on success, with the pool untouched beyond that page; on failure
(or with no current page) it records the OS cache-drop hint for the old
current page, creates a fresh page sized to the maximum of the target page
size and the request plus per-page metadata overhead, retries there (the
retry succeeds and yields the offset right past the nonce and key blocks),
and runs retention cleanup; if page creation fails, the failure is caught
and the call returns null with the pool state intact (no crash, no
propagated exception). -/
theorem pool_malloc_routing (ps : PageStore) (size : Nat) (hs : sizeOK size)
    (hN : NamesOK ps) :
    (∀ pg off, ps.curPage = some pg → (pg.malloc size).1 = some off →
      ∀ ok, (ps.malloc size ok).1 = some (pg.name, off) ∧
        (ps.malloc size ok).2.count = ps.count ∧
        (ps.malloc size ok).2.totalSize = ps.totalSize ∧
        (ps.malloc size ok).2.dropped = ps.dropped ∧
        pageNames (ps.malloc size ok).2.pages = pageNames ps.pages) ∧
    (∀ pg, ps.curPage = some pg → (pg.malloc size).1 = none →
      (∀ ok, (ps.malloc size ok).2.dropped = ps.dropped ++ [pg.name]) ∧
      (ps.malloc size true).1 =
        some (ps.count, aligned_size nonceWidth + BH_aligned_size ps.encKeySize) ∧
      (∃ np ∈ (ps.malloc size true).2.pages, np.name = ps.count ∧
        np.mmapSize = aligned_size (max ps.pageSize (size + meta_size ps.encKeySize)) ∧
        0 < np.used) ∧
      ((ps.malloc size false).1 = none ∧
        pageNames (ps.malloc size false).2.pages = pageNames ps.pages ∧
        (ps.malloc size false).2.totalSize = ps.totalSize ∧
        (ps.malloc size false).2.count = ps.count)) ∧
    (ps.curPage = none →
      (ps.malloc size true).1 =
        some (ps.count, aligned_size nonceWidth + BH_aligned_size ps.encKeySize) ∧
      (∃ np ∈ (ps.malloc size true).2.pages, np.name = ps.count ∧
        np.mmapSize = aligned_size (max ps.pageSize (size + meta_size ps.encKeySize)) ∧
        0 < np.used) ∧
      ps.malloc size false = (none, ps)) := by
  refine ⟨?_, ?_, ?_⟩
  · intro pg off hcur hr ok
    have hpn : pageNames (ps.setPage pg.name fun q => (q.malloc size).2).pages
        = pageNames ps.pages := by
      unfold PageStore.setPage
      simp only
      exact pageNames_replacePage ps.pages pg.name _ (fun q => malloc_snd_name q size)
    unfold PageStore.malloc
    rw [hcur]
    simp only [hr]
    exact ⟨by trivial, by trivial, by trivial, by trivial, hpn⟩
  · intro pg hcur hr
    have hN1 : NamesOK (ps.setPage pg.name (fun q => (q.malloc size).2)) :=
      namesOK_setPage ps pg.name _ (fun q => malloc_snd_name q size) hN
    have hN2 : NamesOK { ps.setPage pg.name (fun q => (q.malloc size).2) with
        dropped := (ps.setPage pg.name (fun q => (q.malloc size).2)).dropped ++ [pg.name] } := by
      intro q hq
      exact hN1 q hq
    refine ⟨?_, ?_, ?_, ?_⟩
    · intro ok
      unfold PageStore.malloc
      rw [hcur]
      simp only [hr]
      rw [malloc_new_dropped]
      rfl
    · unfold PageStore.malloc
      rw [hcur]
      simp only [hr]
      exact (malloc_new_success _ size hN2).1
    · unfold PageStore.malloc
      rw [hcur]
      simp only [hr]
      exact (malloc_new_success _ size hN2).2
    · have hpn : pageNames (ps.setPage pg.name fun q => (q.malloc size).2).pages
          = pageNames ps.pages := by
        unfold PageStore.setPage
        simp only
        exact pageNames_replacePage ps.pages pg.name _ (fun q => malloc_snd_name q size)
      unfold PageStore.malloc
      rw [hcur]
      simp only [hr]
      unfold PageStore.malloc_new
      simp only [Bool.false_eq_true, if_false]
      exact ⟨by trivial, hpn, by trivial, by trivial⟩
  · intro hcur
    refine ⟨?_, ?_, ?_⟩
    · unfold PageStore.malloc
      rw [hcur]
      exact (malloc_new_success ps size hN).1
    · unfold PageStore.malloc
      rw [hcur]
      exact (malloc_new_success ps size hN).2
    · unfold PageStore.malloc
      rw [hcur]
      unfold PageStore.malloc_new
      simp only [Bool.false_eq_true, if_false]

/-- Witness for C3: on the empty pool the first allocation rolls straight
into page creation; with a failing creation path the call returns null and
the pool is untouched. -/
theorem pool_malloc_routing_witness :
    (sizeOK 8 ∧ NamesOK (PageStore.init 0 64) ∧ (PageStore.init 0 64).curPage = none) ∧
    ((PageStore.init 0 64).malloc 8 true).1 =
      some ((PageStore.init 0 64).count,
        aligned_size nonceWidth + BH_aligned_size (PageStore.init 0 64).encKeySize) ∧
    (∃ np ∈ ((PageStore.init 0 64).malloc 8 true).2.pages,
      np.name = (PageStore.init 0 64).count ∧
      np.mmapSize = aligned_size (max (PageStore.init 0 64).pageSize
        (8 + meta_size (PageStore.init 0 64).encKeySize)) ∧
      0 < np.used) ∧
    (PageStore.init 0 64).malloc 8 false = (none, PageStore.init 0 64) :=
  ⟨⟨by decide, fun pg hpg => by simp [PageStore.init] at hpg, rfl⟩,
    (pool_malloc_routing (PageStore.init 0 64) 8 (by decide)
      (fun pg hpg => by simp [PageStore.init] at hpg)).2.2 rfl⟩

/-! ## C9 — PageStore::realloc -/

theorem hdrGet_hdrSet_same (hs : List (Nat × BufferHeader)) (off : Nat)
    (h : BufferHeader) : hdrGet (hdrSet hs off h) off = some h := by
  simp [hdrGet, hdrSet]

theorem if_gt_eq_min (a b : Nat) : (if a > b then b else a) = min a b := by
  by_cases h : a > b
  · simp only [h, if_true]
    omega
  · simp only [h, if_false]
    omega

/-- Reading back the bytes `memcpy` just wrote. -/
theorem writeBytes_extract (mem : List Nat) (off : Nat) (bs : List Nat)
    (h : off + bs.length ≤ mem.length) :
    ((writeBytes mem off bs).drop off).take bs.length = bs := by
  unfold writeBytes
  have hlen : (mem.take off).length = off := by
    rw [List.length_take]
    omega
  rw [List.append_assoc, List.drop_append_of_le_length (by omega),
      List.drop_of_length_le (by omega), List.nil_append,
      List.take_append_of_le_length (by omega), List.take_length]

/-- With pairwise-distinct page names, `find?` locates any member by its
name. -/
theorem find?_of_mem_nodup (l : List Page) (n : Nat) (p : Page)
    (hnd : (pageNames l).Nodup) (hp : p ∈ l) (hpn : p.name = n) :
    l.find? (fun q => q.name == n) = some p := by
  induction l with
  | nil => simp at hp
  | cons a t ih =>
    simp only [pageNames, List.map_cons, List.nodup_cons] at hnd
    rcases List.mem_cons.mp hp with rfl | hp2
    · simp [List.find?_cons, hpn]
    · have han : (a.name == n) = false := by
        simp only [beq_eq_false_iff_ne, ne_eq]
        intro he
        exact hnd.1 (by
          rw [he, ← hpn]
          exact List.mem_map.mpr ⟨p, hp2, rfl⟩)
      simp only [List.find?_cons, han]
      exact ih hnd.2 hp2

/-- `replacePage` rewrites exactly the element `find?` locates. -/
theorem replacePage_of_find? (l : List Page) (n : Nat) (f : Page → Page) (p : Page)
    (h : l.find? (fun q => q.name == n) = some p) :
    ∃ l1 l2, l = l1 ++ p :: l2 ∧
      PageStore.replacePage l n f = l1 ++ f p :: l2 := by
  induction l with
  | nil => simp at h
  | cons a t ih =>
    by_cases ha : (a.name == n) = true
    · have hap : a = p := by
        simp only [List.find?_cons, ha] at h
        exact Option.some.inj h
      refine ⟨[], t, by simp [hap], ?_⟩
      unfold PageStore.replacePage
      rw [ha]
      simp [hap]
    · simp only [List.find?_cons, Bool.not_eq_true] at h ha
      rw [ha] at h
      obtain ⟨l1, l2, hl, hr⟩ := ih h
      refine ⟨a :: l1, l2, by rw [hl, List.cons_append], ?_⟩
      unfold PageStore.replacePage
      rw [ha]
      simp only [Bool.false_eq_true, if_false, List.cons_append, List.cons_inj_right]
      exact hr

theorem setPage_pages (ps : PageStore) (n : Nat) (f : Page → Page) :
    (ps.setPage n f).pages = PageStore.replacePage ps.pages n f := rfl

/-- C9: realloc first asks the page to grow in place, which always fails;
with a working creation path it allocates fresh, copies
`min(old payload, new size)` bytes of the old payload into the fresh slot,
marks the old header released, and decrements the owning page's in-use
count, returning the fresh pointer; if the fresh allocation fails
(creation throws) it returns null and the pool — the old slot included —
is left exactly as it was. -/
theorem pool_realloc_spec (ps : PageStore) (pgName userOff size : Nat) (p : Page)
    (bh : BufferHeader) (hs : sizeOK size) (hN : NamesOK ps)
    (hnd : (pageNames ps.pages).Nodup)
    (hfp : ps.findPage pgName = some p)
    (hbh : hdrGet p.hdrs (userOff - bhSize) = some bh)
    (hseq : bh.seqnoG = 0)
    (hslot : bhSize < bh.size)
    (hused : 0 < p.used)
    (hfits : userOff + (bh.size - bhSize) ≤ p.mem.length) :
    (∀ q o s2, Page.reallocInPlace q o s2 = none) ∧
    ps.realloc pgName userOff size false = (none, ps) ∧
    (ps.realloc pgName userOff size true).1 =
      some (ps.count, aligned_size nonceWidth + BH_aligned_size ps.encKeySize) ∧
    (∃ p2 ∈ (ps.realloc pgName userOff size true).2.pages,
      p2.name = pgName ∧ p2.used = p.used - 1 ∧
      hdrGet p2.hdrs (userOff - bhSize) = some { bh with released := true }) ∧
    (∃ np ∈ (ps.realloc pgName userOff size true).2.pages,
      np.name = ps.count ∧
      (np.mem.drop (aligned_size nonceWidth + BH_aligned_size ps.encKeySize)).take
          (min size (bh.size - bhSize)) =
        (p.mem.drop userOff).take (min size (bh.size - bhSize))) := by
  have hfp2 : ps.pages.find? (fun q => q.name == pgName) = some p := hfp
  have hpmem : p ∈ ps.pages := List.mem_of_find?_eq_some hfp2
  have hpn : p.name = pgName := by
    have := List.find?_some hfp2
    simpa using this
  have hplt : p.name < ps.count := hN p hpmem
  refine ⟨fun q o s2 => rfl, ?_, ?_⟩
  · unfold PageStore.realloc
    simp only [hfp, hbh, Page.reallocInPlace]
    unfold PageStore.malloc_new
    simp only [Bool.false_eq_true, if_false]
  · obtain ⟨h1, np, hmem, hname, hmmap, hused2, hmlen, hnext, hnle, k2, hdec, htk⟩ :=
      malloc_new_strong ps size hN
    set off2 : Nat := aligned_size nonceWidth + BH_aligned_size ps.encKeySize with hoff2
    set ptrSize : Nat := bh.size - bhSize with hptr
    set k : Nat := if size > ptrSize then ptrSize else size with hk
    have hkmin : k = min size ptrSize := if_gt_eq_min _ _
    set bytes : List Nat := (p.mem.drop userOff).take k with hbytes
    have hbl : bytes.length = k := by
      rw [hbytes, List.length_take, List.length_drop]
      omega
    -- the old page survives the fresh allocation
    have hpD : p ∈ ps.pages.drop k2 := by
      have : p ∈ ps.pages.take k2 ∨ p ∈ ps.pages.drop k2 := by
        rw [← List.mem_append, List.take_append_drop]
        exact hpmem
      rcases this with h | h
      · have := htk p h
        omega
      · exact h
    -- first setPage: write the copied bytes into the fresh page
    have hDlt : ∀ q ∈ ps.pages.drop k2, q.name < ps.count :=
      fun q hq => hN q (List.mem_of_mem_drop hq)
    have hDbeq : ∀ q ∈ ps.pages.drop k2, (q.name == ps.count) = false := by
      intro q hq
      have := hDlt q hq
      simp only [beq_eq_false_iff_ne, ne_eq]
      omega
    set np2 : Page := { np with mem := writeBytes np.mem off2 bytes } with hnp2
    have hps2 : ((ps.malloc_new size true).2.setPage ps.count
        (fun q => { q with mem := writeBytes q.mem off2 bytes })).pages
        = ps.pages.drop k2 ++ [np2] := by
      unfold PageStore.setPage
      simp only
      rw [hdec, replacePage_append _ _ _ _ hDbeq]
      unfold PageStore.replacePage
      rw [show (np.name == ps.count) = true by simp [hname]]
      simp only [if_true]
    -- names of the intermediate queue are still pairwise distinct
    have hnd2 : (pageNames (ps.pages.drop k2 ++ [np2])).Nodup := by
      unfold pageNames
      rw [List.map_append]
      simp only [List.map_cons, List.map_nil]
      have hdm : List.map Page.name (ps.pages.drop k2) =
          (List.map Page.name ps.pages).drop k2 := (List.map_drop _ _ _)
      apply List.Nodup.append
      · rw [hdm]
        exact List.Nodup.sublist (List.drop_sublist _ _) hnd
      · simp
      · intro a ha hb
        simp only [List.mem_singleton] at hb
        obtain ⟨q, hq, rfl⟩ := List.mem_map.mp ha
        have := hDlt q hq
        have hnp2n : np2.name = ps.count := by rw [hnp2]; exact hname
        omega
    have hp2mem : p ∈ ps.pages.drop k2 ++ [np2] :=
      List.mem_append_left _ hpD
    have hfind2 : (ps.pages.drop k2 ++ [np2]).find? (fun q => q.name == pgName)
        = some p := find?_of_mem_nodup _ pgName p hnd2 hp2mem hpn
    obtain ⟨l1, l2, hl12, hrep⟩ := replacePage_of_find? _ pgName
      (fun op => { op with
        hdrs := hdrSet op.hdrs (userOff - bhSize) { bh with released := true },
        used := op.used - 1 }) p hfind2
    -- unfold realloc down to the final state
    have hres : ps.realloc pgName userOff size true =
        (some (ps.count, off2),
          (((ps.malloc_new size true).2.setPage ps.count
            (fun q => { q with mem := writeBytes q.mem off2 bytes })).setPage pgName
            (fun op => { op with
              hdrs := hdrSet op.hdrs (userOff - bhSize) { bh with released := true },
              used := op.used - 1 }))) := by
      unfold PageStore.realloc
      simp only [hfp, hbh, Page.reallocInPlace, h1]
    rw [hres]
    have hpages3 : (((ps.malloc_new size true).2.setPage ps.count
        (fun q => { q with mem := writeBytes q.mem off2 bytes })).setPage pgName
        (fun op => { op with
          hdrs := hdrSet op.hdrs (userOff - bhSize) { bh with released := true },
          used := op.used - 1 })).pages =
        l1 ++ { p with
          hdrs := hdrSet p.hdrs (userOff - bhSize) { bh with released := true },
          used := p.used - 1 } :: l2 := by
      rw [setPage_pages, hps2, hrep]
    refine ⟨rfl, ?_, ?_⟩
    · refine ⟨{ p with
        hdrs := hdrSet p.hdrs (userOff - bhSize) { bh with released := true },
        used := p.used - 1 }, ?_, hpn, rfl, hdrGet_hdrSet_same _ _ _⟩
      rw [hpages3]
      exact List.mem_append_right _ (List.mem_cons_self _ _)
    · have hnpne : np2 ≠ p := by
        intro he
        have h1n : np2.name = ps.count := by rw [hnp2]; exact hname
        rw [he, hpn] at h1n
        omega
      have hnp2mem3 : np2 ∈ l1 ++ { p with
          hdrs := hdrSet p.hdrs (userOff - bhSize) { bh with released := true },
          used := p.used - 1 } :: l2 := by
        have : np2 ∈ l1 ++ p :: l2 := by
          rw [← hl12]
          exact List.mem_append_right _ (List.mem_singleton.mpr rfl)
        rcases List.mem_append.mp this with h | h
        · exact List.mem_append_left _ h
        · rcases List.mem_cons.mp h with he | h
          · exact absurd he hnpne
          · exact List.mem_append_right _ (List.mem_cons_of_mem _ h)
      refine ⟨np2, by rw [hpages3]; exact hnp2mem3, by rw [hnp2]; exact hname, ?_⟩
      rw [← hkmin, ← hbytes]
      have hext : ((writeBytes np.mem off2 bytes).drop off2).take bytes.length
          = bytes := by
        apply writeBytes_extract
        rw [hbl]
        have hksize : k ≤ size := by rw [hkmin]; omega
        have := aligned_ge size
        omega
      rw [hnp2]
      simp only
      rw [hbl] at hext
      exact hext

/-- Witness for C9 on the hand-built pool `scenRe`: the single live slot
is reallocated to 8 bytes. -/
theorem pool_realloc_spec_witness :
    (sizeOK 8 ∧ NamesOK scenRe ∧ (pageNames scenRe.pages).Nodup ∧
      scenRe.findPage 0 = some pageRe ∧
      hdrGet pageRe.hdrs (48 - bhSize) = some ⟨40, 0, false⟩ ∧
      0 < pageRe.used ∧ 48 + ((40 : Nat) - bhSize) ≤ pageRe.mem.length) ∧
    (scenRe.realloc 0 48 8 false = (none, scenRe) ∧
      (scenRe.realloc 0 48 8 true).1 =
        some (scenRe.count, aligned_size nonceWidth + BH_aligned_size scenRe.encKeySize) ∧
      (∃ p2 ∈ (scenRe.realloc 0 48 8 true).2.pages,
        p2.name = 0 ∧ p2.used = pageRe.used - 1 ∧
        hdrGet p2.hdrs (48 - bhSize) = some ⟨40, 0, true⟩) ∧
      (∃ np ∈ (scenRe.realloc 0 48 8 true).2.pages,
        np.name = scenRe.count ∧
        (np.mem.drop (aligned_size nonceWidth + BH_aligned_size scenRe.encKeySize)).take
            (min 8 ((40 : Nat) - bhSize)) =
          (pageRe.mem.drop 48).take (min 8 ((40 : Nat) - bhSize)))) :=
  ⟨⟨by decide, by intro pg hpg; simp [scenRe] at hpg; subst hpg; decide, by decide,
      by decide, by decide, by decide, by decide⟩,
    (pool_realloc_spec scenRe 0 48 8 pageRe ⟨40, 0, false⟩ (by decide)
      (by intro pg hpg; simp [scenRe] at hpg; subst hpg; decide) (by decide)
      (by decide) (by decide) (by decide) (by decide) (by decide) (by decide)).2⟩

/-! ## C7 — a failed page never serves again

First half: once a page name is retired (`Retired`), every later operation
keeps it retired and never returns a pointer on it. -/

theorem findPage_name (ps : PageStore) (n : Nat) (q : Page)
    (h : ps.findPage n = some q) : q.name = n := by
  have h2 : ps.pages.find? (fun p => p.name == n) = some q := h
  simpa using List.find?_some h2

theorem curPage_name (ps : PageStore) (pg : Page)
    (h : ps.curPage = some pg) : ps.current = some pg.name := by
  unfold PageStore.curPage at h
  cases hc : ps.current with
  | none =>
    rw [hc] at h
    simp at h
  | some n =>
    rw [hc] at h
    simp only [Option.some_bind] at h
    rw [findPage_name ps n pg h]

theorem delete_page_current (ps : PageStore) :
    (ps.delete_page).2.current = none ∨ (ps.delete_page).2.current = ps.current := by
  cases hp : ps.pages with
  | nil =>
    right
    unfold PageStore.delete_page
    rw [hp]
  | cons pg rest =>
    by_cases hu : 0 < pg.used
    · right
      unfold PageStore.delete_page
      rw [hp]
      simp [hu]
    · unfold PageStore.delete_page
      rw [hp]
      by_cases he : ps.current = some pg.name
      · left
        simp [hu, he]
      · right
        simp [hu, he]

theorem cleanupFuel_current (n : Nat) (ps : PageStore) :
    (PageStore.cleanupFuel n ps).current = none ∨
      (PageStore.cleanupFuel n ps).current = ps.current := by
  induction n generalizing ps with
  | zero => right; rfl
  | succ n ih =>
    unfold PageStore.cleanupFuel
    by_cases hneed : PageStore.cleanupNeeded ps
    · simp only [hneed, if_true]
      by_cases hdel : (ps.delete_page).1
      · simp only [hdel, if_true]
        rcases ih (ps.delete_page).2 with h | h
        · exact Or.inl h
        · rw [h]
          exact delete_page_current ps
      · simp only [hdel, if_false, Bool.false_eq_true]
        exact delete_page_current ps
    · simp only [hneed, if_false, Bool.false_eq_true]
      exact Or.inr (by trivial)

theorem resetFuel_fields (n : Nat) (ps : PageStore) :
    (PageStore.resetFuel n ps).count = ps.count ∧
      ((PageStore.resetFuel n ps).current = none ∨
        (PageStore.resetFuel n ps).current = ps.current) := by
  induction n generalizing ps with
  | zero => exact ⟨rfl, Or.inr rfl⟩
  | succ n ih =>
    unfold PageStore.resetFuel
    by_cases hempty : ps.pages.isEmpty
    · simp only [hempty, if_true]
      exact ⟨by trivial, Or.inr (by trivial)⟩
    · simp only [hempty, if_false, Bool.false_eq_true]
      obtain ⟨-, hcnt, -, -, -⟩ := delete_page_fields ps
      by_cases hdel : (ps.delete_page).1
      · simp only [hdel, if_true]
        obtain ⟨ihc, ihcur⟩ := ih (ps.delete_page).2
        refine ⟨ihc.trans hcnt, ?_⟩
        rcases ihcur with h | h
        · exact Or.inl h
        · rw [h]
          exact delete_page_current ps
      · simp only [hdel, if_false, Bool.false_eq_true]
        exact ⟨hcnt, delete_page_current ps⟩

theorem retired_cleanup (ps : PageStore) (p : Nat) (h : Retired ps p) :
    Retired (ps.cleanup) p := by
  obtain ⟨h1, h2⟩ := h
  refine ⟨?_, ?_⟩
  · rw [show ps.cleanup.count = (PageStore.cleanupFuel ps.pages.length ps).count from rfl,
      (cleanupFuel_fields ps.pages.length ps).2.1]
    exact h1
  · rcases cleanupFuel_current ps.pages.length ps with hc | hc
    · rw [show (ps.cleanup).current = (PageStore.cleanupFuel ps.pages.length ps).current
        from rfl, hc]
      simp
    · rw [show (ps.cleanup).current = (PageStore.cleanupFuel ps.pages.length ps).current
        from rfl, hc]
      exact h2

theorem retired_resetOp (ps : PageStore) (p : Nat) (h : Retired ps p) :
    Retired (ps.reset) p := by
  obtain ⟨h1, h2⟩ := h
  obtain ⟨hc, hcur⟩ := resetFuel_fields ps.pages.length ps
  refine ⟨?_, ?_⟩
  · rw [show (ps.reset).count = (PageStore.resetFuel ps.pages.length ps).count
      from rfl, hc]
    exact h1
  · rcases hcur with hx | hx
    · rw [show (ps.reset).current = (PageStore.resetFuel ps.pages.length ps).current
        from rfl, hx]
      simp
    · rw [show (ps.reset).current = (PageStore.resetFuel ps.pages.length ps).current
        from rfl, hx]
      exact h2

theorem retired_new_page (ps : PageStore) (sz : Nat) (p : Nat) (h : p < ps.count) :
    Retired (ps.new_page sz) p := by
  refine ⟨?_, ?_⟩
  · rw [show (ps.new_page sz).count = ps.count + 1 from rfl]
    omega
  · rw [show (ps.new_page sz).current = some ps.count from rfl]
    intro he
    have := Option.some.inj he
    omega

theorem retired_malloc_new (ps : PageStore) (size : Nat) (ok : Bool) (p : Nat)
    (h : Retired ps p) : Retired (ps.malloc_new size ok).2 p := by
  unfold PageStore.malloc_new
  by_cases hok : ok
  · simp only [hok, if_true]
    set S : Nat := if ps.pageSize > size + meta_size ps.encKeySize then ps.pageSize
      else size + meta_size ps.encKeySize with hS
    have hr1 : Retired (ps.new_page S) p := retired_new_page ps S p h.1
    cases hcur : (ps.new_page S).curPage with
    | none =>
      simp only [hcur]
      exact retired_cleanup _ p hr1
    | some pg =>
      simp only [hcur]
      apply retired_cleanup
      exact ⟨hr1.1, hr1.2⟩
  · simp only [hok, if_false, Bool.false_eq_true]
    exact h

theorem retired_malloc (ps : PageStore) (size : Nat) (ok : Bool) (p : Nat)
    (h : Retired ps p) : Retired (ps.malloc size ok).2 p := by
  unfold PageStore.malloc
  cases hcur : ps.curPage with
  | none =>
    simp only [hcur]
    exact retired_malloc_new ps size ok p h
  | some pg =>
    simp only [hcur]
    cases hr : (pg.malloc size).1 with
    | some off =>
      simp only [hr]
      exact ⟨h.1, h.2⟩
    | none =>
      simp only [hr]
      exact retired_malloc_new _ size ok p ⟨h.1, h.2⟩

theorem retired_realloc (ps : PageStore) (pgName uoff size : Nat) (ok : Bool) (p : Nat)
    (h : Retired ps p) : Retired (ps.realloc pgName uoff size ok).2 p := by
  unfold PageStore.realloc
  cases hfp : ps.findPage pgName with
  | none => exact h
  | some q =>
    simp only [hfp]
    cases hbh : hdrGet q.hdrs (uoff - bhSize) with
    | none => exact h
    | some bh =>
      simp only [hbh, Page.reallocInPlace]
      have h2 : Retired (ps.malloc_new size ok).2 p := retired_malloc_new ps size ok p h
      cases hr : (ps.malloc_new size ok).1 with
      | none =>
        simp only [hr]
        exact h2
      | some ret =>
        simp only [hr]
        exact ⟨h2.1, h2.2⟩

theorem retired_applyOp (ps : PageStore) (op : Op) (p : Nat) (h : Retired ps p) :
    Retired (applyOp ps op) p := by
  cases op with
  | alloc size ok => exact retired_malloc ps size ok p h
  | reallocOp pgName uoff size ok => exact retired_realloc ps pgName uoff size ok p h
  | setKey k =>
    have := retired_new_page ps
      (if meta_size ps.encKeySize > ps.pageSize then meta_size ps.encKeySize
        else ps.pageSize) p h.1
    exact ⟨this.1, this.2⟩
  | cleanupOp => exact retired_cleanup ps p h
  | resetOp => exact retired_resetOp ps p h
  | releaseOp pg => exact ⟨h.1, h.2⟩

theorem malloc_new_result_name (ps : PageStore) (size : Nat) (ok : Bool)
    (r : Nat × Nat) (h : (ps.malloc_new size ok).1 = some r) : r.1 = ps.count := by
  unfold PageStore.malloc_new at h
  by_cases hok : ok
  · simp only [hok, if_true] at h
    set S : Nat := if ps.pageSize > size + meta_size ps.encKeySize then ps.pageSize
      else size + meta_size ps.encKeySize with hS
    cases hcur : (ps.new_page S).curPage with
    | none =>
      simp only [hcur] at h
      exact Option.noConfusion h
    | some pg =>
      simp only [hcur] at h
      cases hro : (pg.malloc size).1 with
      | none =>
        rw [hro] at h
        exact Option.noConfusion h
      | some off =>
        rw [hro] at h
        have hr2 : (pg.name, off) = r := by simpa using h
        have hc := curPage_name _ pg hcur
        rw [show (ps.new_page S).current = some ps.count from rfl] at hc
        have h2 := Option.some.inj hc
        rw [← hr2]
        exact h2.symm
  · simp only [hok, if_false, Bool.false_eq_true] at h
    exact Option.noConfusion h

theorem opResult_retired (ps : PageStore) (p : Nat) (h : Retired ps p) (op : Op)
    (off : Nat) : opResult ps op ≠ some (p, off) := by
  have hlt : p < ps.count := h.1
  cases op with
  | alloc size ok =>
    unfold opResult PageStore.malloc
    cases hcur : ps.curPage with
    | none =>
      simp only [hcur]
      intro he
      have hpc : p = ps.count := malloc_new_result_name ps size ok (p, off) he
      omega
    | some pg =>
      simp only [hcur]
      cases hr : (pg.malloc size).1 with
      | some o =>
        simp only [hr]
        intro he
        have hpn : pg.name = p := congrArg Prod.fst (Option.some.inj he)
        have hcn := curPage_name ps pg hcur
        rw [hpn] at hcn
        exact h.2 hcn
      | none =>
        simp only [hr]
        intro he
        have hres := malloc_new_result_name _ size ok (p, off) he
        have hpc : p = ps.count := hres
        omega
  | reallocOp pgName uoff size ok =>
    unfold opResult PageStore.realloc
    cases hfp : ps.findPage pgName with
    | none => simp [hfp]
    | some q =>
      simp only [hfp]
      cases hbh : hdrGet q.hdrs (uoff - bhSize) with
      | none => simp [hbh]
      | some bh =>
        simp only [hbh, Page.reallocInPlace]
        cases hr : (ps.malloc_new size ok).1 with
        | none => simp [hr]
        | some ret =>
          simp only [hr]
          intro he
          have hrn := malloc_new_result_name ps size ok ret hr
          have hretp : ret = (p, off) := Option.some.inj he
          have hpc : p = ps.count := by
            rw [hretp] at hrn
            exact hrn
          omega
  | setKey k => simp [opResult]
  | cleanupOp => simp [opResult]
  | resetOp => simp [opResult]
  | releaseOp pg => simp [opResult]

theorem retired_never_served (p : Nat) :
    ∀ ops (ps : PageStore), Retired ps p → ∀ off, (p, off) ∉ runResults ps ops := by
  intro ops
  induction ops with
  | nil =>
    intro ps h off hmem
    simp [runResults] at hmem
  | cons op rest ih =>
    intro ps h off hmem
    unfold runResults at hmem
    rcases List.mem_append.mp hmem with hm | hm
    · cases hres : opResult ps op with
      | none =>
        rw [hres] at hm
        simp at hm
      | some r =>
        rw [hres] at hm
        simp only [Option.toList_some, List.mem_singleton] at hm
        exact opResult_retired ps p h op off (by rw [hres, ← hm])
    · exact ih (applyOp ps op) (retired_applyOp ps op p h) off hm

/-! Second half of C7: a page that still has users is never dropped from
the queue by any single operation (`LiveUsed` persistence). -/

theorem pageAddKeyBlock_used (kb : Nat) (q : Page) :
    (PageStore.pageAddKeyBlock kb q).used = q.used := by
  unfold PageStore.pageAddKeyBlock Page.malloc
  by_cases h : aligned_size kb ≤ q.space
  · simp [h, Page.discard]
  · simp [h, close_used]

theorem replacePage_live (l : List Page) (n : Nat) (f : Page → Page) (q : Nat)
    (hfu : ∀ r : Page, r.used ≤ (f r).used) (hfn : ∀ r : Page, (f r).name = r.name)
    (h : ∃ pg ∈ l, pg.name = q ∧ 0 < pg.used) :
    ∃ pg ∈ PageStore.replacePage l n f, pg.name = q ∧ 0 < pg.used := by
  induction l with
  | nil =>
    obtain ⟨w, hw, -⟩ := h
    simp at hw
  | cons a t ih =>
    obtain ⟨w, hw, hwn, hwu⟩ := h
    unfold PageStore.replacePage
    by_cases ha : (a.name == n) = true
    · simp only [ha, if_true]
      rcases List.mem_cons.mp hw with rfl | hwt
      · exact ⟨f w, List.mem_cons_self _ _, by rw [hfn w]; exact hwn,
          Nat.lt_of_lt_of_le hwu (hfu w)⟩
      · exact ⟨w, List.mem_cons_of_mem _ hwt, hwn, hwu⟩
    · simp only [ha, Bool.false_eq_true, if_false]
      rcases List.mem_cons.mp hw with rfl | hwt
      · exact ⟨w, List.mem_cons_self _ _, hwn, hwu⟩
      · obtain ⟨v, hv, hvn, hvu⟩ := ih ⟨w, hwt, hwn, hwu⟩
        exact ⟨v, List.mem_cons_of_mem _ hv, hvn, hvu⟩

theorem replacePage_present (l : List Page) (n : Nat) (f : Page → Page) (q : Nat)
    (hfn : ∀ r : Page, (f r).name = r.name)
    (h : ∃ pg ∈ l, pg.name = q) :
    ∃ pg ∈ PageStore.replacePage l n f, pg.name = q := by
  induction l with
  | nil =>
    obtain ⟨w, hw, -⟩ := h
    simp at hw
  | cons a t ih =>
    obtain ⟨w, hw, hwn⟩ := h
    unfold PageStore.replacePage
    by_cases ha : (a.name == n) = true
    · simp only [ha, if_true]
      rcases List.mem_cons.mp hw with rfl | hwt
      · exact ⟨f w, List.mem_cons_self _ _, by rw [hfn w]; exact hwn⟩
      · exact ⟨w, List.mem_cons_of_mem _ hwt, hwn⟩
    · simp only [ha, Bool.false_eq_true, if_false]
      rcases List.mem_cons.mp hw with rfl | hwt
      · exact ⟨w, List.mem_cons_self _ _, hwn⟩
      · obtain ⟨v, hv, hvn⟩ := ih ⟨w, hwt, hwn⟩
        exact ⟨v, List.mem_cons_of_mem _ hv, hvn⟩

theorem delete_page_live (ps : PageStore) (q : Nat) (h : LiveUsed ps q) :
    LiveUsed (ps.delete_page).2 q := by
  obtain ⟨w, hw, hwn, hwu⟩ := h
  cases hp : ps.pages with
  | nil =>
    rw [hp] at hw
    simp at hw
  | cons pg rest =>
    by_cases hu : 0 < pg.used
    · have hdel : ps.delete_page = (false, ps) := by
        unfold PageStore.delete_page
        rw [hp]
        simp [hu]
      rw [hdel]
      exact ⟨w, hw, hwn, hwu⟩
    · set ps2 : PageStore :=
        { ps with pages := rest,
                  totalSize := ps.totalSize - pg.size,
                  current := if ps.current = some pg.name then none else ps.current,
                  deleted := ps.deleted ++ [pg.name] } with hps2
      have hdel : ps.delete_page = (true, ps2) := by
        unfold PageStore.delete_page
        rw [hp]
        simp [hu, hps2]
      rw [hdel]
      rw [hp] at hw
      rcases List.mem_cons.mp hw with rfl | hwt
      · omega
      · exact ⟨w, by simp only [hps2]; exact hwt, hwn, hwu⟩

theorem cleanupFuel_live (n : Nat) (ps : PageStore) (q : Nat) (h : LiveUsed ps q) :
    LiveUsed (PageStore.cleanupFuel n ps) q := by
  induction n generalizing ps with
  | zero => exact h
  | succ n ih =>
    unfold PageStore.cleanupFuel
    by_cases hneed : PageStore.cleanupNeeded ps
    · simp only [hneed, if_true]
      have h2 := delete_page_live ps q h
      by_cases hdel : (ps.delete_page).1
      · simp only [hdel, if_true]
        exact ih _ h2
      · simp only [hdel, if_false, Bool.false_eq_true]
        exact h2
    · simp only [hneed, if_false, Bool.false_eq_true]
      exact h

theorem resetFuel_live (n : Nat) (ps : PageStore) (q : Nat) (h : LiveUsed ps q) :
    LiveUsed (PageStore.resetFuel n ps) q := by
  induction n generalizing ps with
  | zero => exact h
  | succ n ih =>
    unfold PageStore.resetFuel
    by_cases hempty : ps.pages.isEmpty
    · simp only [hempty, if_true]
      exact h
    · simp only [hempty, if_false, Bool.false_eq_true]
      have h2 := delete_page_live ps q h
      by_cases hdel : (ps.delete_page).1
      · simp only [hdel, if_true]
        exact ih _ h2
      · simp only [hdel, if_false, Bool.false_eq_true]
        exact h2

theorem new_page_live (ps : PageStore) (sz : Nat) (q : Nat) (h : LiveUsed ps q) :
    LiveUsed (ps.new_page sz) q := by
  obtain ⟨w, hw, hwn, hwu⟩ := h
  exact replacePage_live _ _ _ _
    (fun r => by rw [pageAddKeyBlock_used]) (fun r => pageAddKeyBlock_name _ r)
    ⟨w, List.mem_append_left _ hw, hwn, hwu⟩

theorem malloc_new_live (ps : PageStore) (size : Nat) (ok : Bool) (q : Nat)
    (h : LiveUsed ps q) : LiveUsed (ps.malloc_new size ok).2 q := by
  unfold PageStore.malloc_new
  by_cases hok : ok
  · simp only [hok, if_true]
    set S : Nat := if ps.pageSize > size + meta_size ps.encKeySize then ps.pageSize
      else size + meta_size ps.encKeySize with hS
    have h1 : LiveUsed (ps.new_page S) q := new_page_live ps S q h
    cases hcur : (ps.new_page S).curPage with
    | none =>
      simp only [hcur]
      exact cleanupFuel_live _ _ q h1
    | some pg =>
      simp only [hcur]
      apply cleanupFuel_live
      exact replacePage_live _ _ _ _
        (fun r => malloc_snd_used r size) (fun r => malloc_snd_name r size) h1
  · simp only [hok, if_false, Bool.false_eq_true]
    exact h

theorem malloc_live (ps : PageStore) (size : Nat) (ok : Bool) (q : Nat)
    (h : LiveUsed ps q) : LiveUsed (ps.malloc size ok).2 q := by
  unfold PageStore.malloc
  cases hcur : ps.curPage with
  | none =>
    simp only [hcur]
    exact malloc_new_live ps size ok q h
  | some pg =>
    simp only [hcur]
    have h1 : LiveUsed (ps.setPage pg.name (fun r => (r.malloc size).2)) q :=
      replacePage_live _ _ _ _
        (fun r => malloc_snd_used r size) (fun r => malloc_snd_name r size) h
    cases hr : (pg.malloc size).1 with
    | some off =>
      simp only [hr]
      exact h1
    | none =>
      simp only [hr]
      exact malloc_new_live _ size ok q h1

theorem present_of_live (ps : PageStore) (q : Nat) (h : LiveUsed ps q) :
    ∃ pg ∈ ps.pages, pg.name = q := by
  obtain ⟨w, hw, hwn, -⟩ := h
  exact ⟨w, hw, hwn⟩

theorem live_present_applyOp (ps : PageStore) (op : Op) (q : Nat)
    (h : LiveUsed ps q) : ∃ pg ∈ (applyOp ps op).pages, pg.name = q := by
  cases op with
  | alloc size ok => exact present_of_live _ q (malloc_live ps size ok q h)
  | reallocOp pgName uoff size ok =>
    unfold applyOp PageStore.realloc
    cases hfp : ps.findPage pgName with
    | none =>
      simp only [hfp]
      exact present_of_live _ q h
    | some pw =>
      simp only [hfp]
      cases hbh : hdrGet pw.hdrs (uoff - bhSize) with
      | none => exact present_of_live _ q h
      | some bh =>
        simp only [hbh, Page.reallocInPlace]
        have h1 : LiveUsed (ps.malloc_new size ok).2 q := malloc_new_live ps size ok q h
        cases hr : (ps.malloc_new size ok).1 with
        | none =>
          simp only [hr]
          exact present_of_live _ q h1
        | some ret =>
          simp only [hr]
          refine replacePage_present _ _ _ _ (fun r => rfl) ?_
          exact present_of_live _ q
            (replacePage_live _ _ _ _ (fun r => Nat.le_refl _) (fun r => rfl) h1)
  | setKey k => exact present_of_live _ q (new_page_live ps _ q h)
  | cleanupOp => exact present_of_live _ q (cleanupFuel_live _ ps q h)
  | resetOp => exact present_of_live _ q (resetFuel_live _ ps q h)
  | releaseOp pg => exact replacePage_present _ _ _ _ (fun r => rfl) (present_of_live _ q h)

/-- Rolling over with a working creation path retires any previously
issued name. -/
theorem retired_after_malloc_new (ps : PageStore) (size : Nat) (p : Nat)
    (h : p < ps.count) : Retired (ps.malloc_new size true).2 p := by
  unfold PageStore.malloc_new
  simp only [if_true]
  set S : Nat := if ps.pageSize > size + meta_size ps.encKeySize then ps.pageSize
    else size + meta_size ps.encKeySize with hS
  have hr1 : Retired (ps.new_page S) p := retired_new_page ps S p h
  cases hcur : (ps.new_page S).curPage with
  | none =>
    simp only [hcur]
    exact retired_cleanup _ p hr1
  | some pg2 =>
    simp only [hcur]
    exact retired_cleanup _ p ⟨hr1.1, hr1.2⟩

/-- C7 as stated fails: when creating the replacement page fails, the
failed page stays current and satisfies a later, smaller first-time
allocation.  Page 0 of `scenA` (8 bytes of space left) fails a 16-byte
allocation; the rollover's page creation fails (`scenFail`), and the next
8-byte allocation is served by page 0 at offset 56. -/
theorem failed_page_reuse_counterexample :
    scenAPage.name = 0 ∧
    (scenAPage.malloc 16).1 = none ∧
    (scenA.malloc 16 false).1 = none ∧
    scenFail.current = some 0 ∧
    (scenFail.malloc 8 true).1 = some (0, 56) := by
  decide

/-- C7 amended: once a page has failed to satisfy an allocation and the
replacement page was successfully created (which the failing call itself
does when page creation does not throw), the page is retired: it is never
`current` again and no later operation, whatever its outcome, ever
returns a pointer on it; and a page holding outstanding buffers is never
dropped from the queue by any operation (previously issued buffers stay
valid until released).  If creating the replacement page fails, the failed
page remains current and may satisfy later, smaller allocations (see the
counterexample). -/
theorem failed_page_not_reused (ps : PageStore) (pg : Page) (size : Nat)
    (hs : sizeOK size) (hcur : ps.curPage = some pg) (hlt : pg.name < ps.count)
    (hfail : (pg.malloc size).1 = none) :
    Retired (ps.malloc size true).2 pg.name ∧
    (∀ ops off, (pg.name, off) ∉ runResults (ps.malloc size true).2 ops) ∧
    (∀ s : PageStore, ∀ q op, LiveUsed s q →
      ∃ r ∈ (applyOp s op).pages, r.name = q) := by
  have hret : Retired (ps.malloc size true).2 pg.name := by
    unfold PageStore.malloc
    simp only [hcur, hfail]
    exact retired_after_malloc_new _ size pg.name hlt
  exact ⟨hret, fun ops off => retired_never_served pg.name ops _ hret off,
    fun s q op hl => live_present_applyOp s op q hl⟩

/-- Witness for C7 (amended) on the concrete pool `scenA`, whose current
page 0 cannot satisfy a 16-byte allocation. -/
theorem failed_page_not_reused_witness :
    (sizeOK 16 ∧ scenA.curPage = some scenAPage ∧ scenAPage.name < scenA.count ∧
      (scenAPage.malloc 16).1 = none) ∧
    Retired (scenA.malloc 16 true).2 scenAPage.name :=
  ⟨⟨by decide, by decide, by decide, by decide⟩,
    (failed_page_not_reused scenA scenAPage 16 (by decide) (by decide) (by decide)
      (by decide)).1⟩

end GCache
